import Mathlib

/-!
# Wachesaw level editor — shallow embedding and verification

This file embeds the chapter-document editing model of
`tools/level_editor.py` (and the data-file path check of
`tools/dev_server.py`) in Lean 4 and proves properties of it.

Modelling conventions:
* Python/JSON values are modelled by the inductive `Json`; numbers are
  restricted to integers (the documents in this repository contain no
  floats, and floating point is outside the embedding).
* Python `dict`s are association lists in insertion order with unique
  keys; `d[k] = v` is `pySetKey` (replace in place, else append), which
  is Python's dict-assignment semantics.
* Python strings are Lean `String`s; character-level work is done on
  `List Char`.  `str.strip()` is modelled over the ASCII whitespace set.
* GTK widgets themselves are not modelled; an editor buffer is the data
  the widgets hold.  GTK signal re-entrancy (callbacks fired during
  programmatic list rebuilding) is outside the model: each handler is
  embedded as the state transformer given by its own statements.
* A Python exception raised before any state mutation aborts the GTK
  handler leaving the state unchanged; such paths are modelled either as
  the identity on the state or, where the error channel itself matters
  (`_delete_step`, `BoardGrid._place`), with `Except PyErr`.
-/

namespace Wachesaw

/-- Python exception kinds that the embedded code can raise. -/
inductive PyErr where
  | indexError
  | typeError
  | attributeError
deriving DecidableEq, Repr

/-! ## Python string helpers (`str.strip`, `str.split(",")`) -/

/-- ASCII whitespace, as recognised by Python's `str.strip()`
(the full Unicode whitespace set of Python is not exercised here). -/
def isPySpace (c : Char) : Bool :=
  c = ' ' ∨ c = '\t' ∨ c = '\n' ∨ c = '\r' ∨ c = '\x0b' ∨ c = '\x0c'

/-- Drop leading whitespace (`str.lstrip()`), on character lists. -/
def lstripL (l : List Char) : List Char := l.dropWhile isPySpace

/-- Drop trailing whitespace (`str.rstrip()`), on character lists. -/
def rstripL (l : List Char) : List Char := (l.reverse.dropWhile isPySpace).reverse

/-- `str.strip()` on character lists. -/
def stripL (l : List Char) : List Char := rstripL (lstripL l)

/-- `str.strip()` on strings. -/
def pyStrip (s : String) : String := String.mk (stripL s.data)

/-- `str.split(sep)` for a one-character separator, keeping empty tokens
(`"".split(",") == [""]`). -/
def splitSep (sep : Char) : List Char → List (List Char)
  | [] => [[]]
  | c :: cs =>
    match splitSep sep cs with
    | [] => [[]]
    | t :: ts => if c = sep then [] :: t :: ts else (c :: t) :: ts

/-- `str.split(",")`. -/
def splitComma : List Char → List (List Char) := splitSep ','

/-! ## JSON values -/

/-- A JSON value as held by the editor (a Python object produced by
`json.load` or built by the editor).  Object fields are in insertion
order; numbers are integers. -/
inductive Json where
  | null
  | bool (b : Bool)
  | int (n : Int)
  | str (s : String)
  | arr (elems : List Json)
  | obj (fields : List (String × Json))

mutual

/-- Decidable equality of JSON values (hand-written: the nested
inductive defeats the deriving handler). -/
def Json.decEq : (a b : Json) → Decidable (a = b)
  | .null, .null => .isTrue rfl
  | .bool x, .bool y =>
    if h : x = y then .isTrue (by rw [h]) else .isFalse (by intro hh; cases hh; exact h rfl)
  | .int x, .int y =>
    if h : x = y then .isTrue (by rw [h]) else .isFalse (by intro hh; cases hh; exact h rfl)
  | .str x, .str y =>
    if h : x = y then .isTrue (by rw [h]) else .isFalse (by intro hh; cases hh; exact h rfl)
  | .arr x, .arr y =>
    match Json.decEqList x y with
    | .isTrue h => .isTrue (by rw [h])
    | .isFalse h => .isFalse (by intro hh; cases hh; exact h rfl)
  | .obj x, .obj y =>
    match Json.decEqFields x y with
    | .isTrue h => .isTrue (by rw [h])
    | .isFalse h => .isFalse (by intro hh; cases hh; exact h rfl)
  | .null, .bool _ => .isFalse (fun h => nomatch h)
  | .null, .int _ => .isFalse (fun h => nomatch h)
  | .null, .str _ => .isFalse (fun h => nomatch h)
  | .null, .arr _ => .isFalse (fun h => nomatch h)
  | .null, .obj _ => .isFalse (fun h => nomatch h)
  | .bool _, .null => .isFalse (fun h => nomatch h)
  | .bool _, .int _ => .isFalse (fun h => nomatch h)
  | .bool _, .str _ => .isFalse (fun h => nomatch h)
  | .bool _, .arr _ => .isFalse (fun h => nomatch h)
  | .bool _, .obj _ => .isFalse (fun h => nomatch h)
  | .int _, .null => .isFalse (fun h => nomatch h)
  | .int _, .bool _ => .isFalse (fun h => nomatch h)
  | .int _, .str _ => .isFalse (fun h => nomatch h)
  | .int _, .arr _ => .isFalse (fun h => nomatch h)
  | .int _, .obj _ => .isFalse (fun h => nomatch h)
  | .str _, .null => .isFalse (fun h => nomatch h)
  | .str _, .bool _ => .isFalse (fun h => nomatch h)
  | .str _, .int _ => .isFalse (fun h => nomatch h)
  | .str _, .arr _ => .isFalse (fun h => nomatch h)
  | .str _, .obj _ => .isFalse (fun h => nomatch h)
  | .arr _, .null => .isFalse (fun h => nomatch h)
  | .arr _, .bool _ => .isFalse (fun h => nomatch h)
  | .arr _, .int _ => .isFalse (fun h => nomatch h)
  | .arr _, .str _ => .isFalse (fun h => nomatch h)
  | .arr _, .obj _ => .isFalse (fun h => nomatch h)
  | .obj _, .null => .isFalse (fun h => nomatch h)
  | .obj _, .bool _ => .isFalse (fun h => nomatch h)
  | .obj _, .int _ => .isFalse (fun h => nomatch h)
  | .obj _, .str _ => .isFalse (fun h => nomatch h)
  | .obj _, .arr _ => .isFalse (fun h => nomatch h)
termination_by structural a _ => a

/-- Decidable equality of JSON value lists. -/
def Json.decEqList : (a b : List Json) → Decidable (a = b)
  | [], [] => .isTrue rfl
  | [], _ :: _ => .isFalse (fun h => nomatch h)
  | _ :: _, [] => .isFalse (fun h => nomatch h)
  | x :: xs, y :: ys =>
    match Json.decEq x y with
    | .isFalse h => .isFalse (by intro hh; injection hh with h1 h2; exact h h1)
    | .isTrue h1 =>
      match Json.decEqList xs ys with
      | .isTrue h2 => .isTrue (by rw [h1, h2])
      | .isFalse h => .isFalse (by intro hh; injection hh with _ h2; exact h h2)
termination_by structural a _ => a

/-- Decidable equality of JSON object field lists. -/
def Json.decEqFields : (a b : List (String × Json)) → Decidable (a = b)
  | [], [] => .isTrue rfl
  | [], _ :: _ => .isFalse (fun h => nomatch h)
  | _ :: _, [] => .isFalse (fun h => nomatch h)
  | (k1, v1) :: t1, (k2, v2) :: t2 =>
    if hk : k1 = k2 then
      match Json.decEq v1 v2 with
      | .isFalse h => .isFalse (by intro hh; injection hh with h1 h2; cases h1; exact h rfl)
      | .isTrue hv =>
        match Json.decEqFields t1 t2 with
        | .isTrue ht => .isTrue (by rw [hk, hv, ht])
        | .isFalse h => .isFalse (by intro hh; injection hh with _ h2; exact h h2)
    else .isFalse (by intro hh; injection hh with h1 _; cases h1; exact hk rfl)
termination_by structural a _ => a

end

instance : DecidableEq Json := Json.decEq

/-- First-match lookup in an object's field list (Python dict lookup;
dicts built by this program have unique keys). -/
def jLookup : List (String × Json) → String → Option Json
  | [], _ => none
  | (k, v) :: t, key => if k = key then some v else jLookup t key

/-- Lookup with a default (`d.get(key, dflt)`). -/
def jLookupD (fs : List (String × Json)) (key : String) (dflt : Json) : Json :=
  (jLookup fs key).getD dflt

/-- Python dict assignment `d[k] = v`: replace the value in place if the
key exists, keeping its position, else append. -/
def pySetKey : List (String × Json) → String → Json → List (String × Json)
  | [], key, v => [(key, v)]
  | (k, w) :: t, key, v =>
    if k = key then (k, v) :: t else (k, w) :: pySetKey t key v

/-- `d.get(key)` where `d` may be any value: `none` both when the key is
missing and when `d` is not a dict (the latter raises in Python; call
sites that distinguish the two match on the object shape directly). -/
def jGet (j : Json) (key : String) : Option Json :=
  match j with
  | .obj fs => jLookup fs key
  | _ => none

/-- Python truthiness of a JSON value (`bool(x)`). -/
def jTruthy : Json → Bool
  | .null => false
  | .bool b => b
  | .int n => n != 0
  | .str s => !s.isEmpty
  | .arr xs => !xs.isEmpty
  | .obj fs => !fs.isEmpty

/-- Truthiness of an optional value (`None` is falsy). -/
def truthyOpt : Option Json → Bool
  | none => false
  | some j => jTruthy j

/-! ## Python list indexing -/

/-- Normalise a Python index: negative indices count from the end. -/
def pyNorm (i : Int) (n : Nat) : Int := if i < 0 then i + n else i

/-- `l[i]` for a Python list: `none` is an `IndexError`. -/
def pyGetIdx (l : List α) (i : Int) : Option α :=
  let j := pyNorm i l.length
  if 0 ≤ j then l[j.toNat]? else none

/-- `l[i] = v` for a Python list: `none` is an `IndexError`. -/
def pySetIdx (l : List α) (i : Int) (v : α) : Option (List α) :=
  let j := pyNorm i l.length
  if 0 ≤ j ∧ j.toNat < l.length then some (l.set j.toNat v) else none

/-- `list.insert(i, x)`: Python clamps the position into `[0, len]`. -/
def pyInsertAt : Nat → α → List α → List α
  | 0, x, l => x :: l
  | _ + 1, x, [] => [x]
  | n + 1, x, a :: l => a :: pyInsertAt n x l

/-- The position at which `list.insert(i, x)` actually inserts. -/
def pyClamp (i : Int) (n : Nat) : Nat :=
  if i < 0 then (max 0 (i + n)).toNat else min i.toNat n

/-- `list.insert(i, x)` with Python's clamping semantics. -/
def pyInsert (l : List α) (i : Int) (x : α) : List α :=
  pyInsertAt (pyClamp i l.length) x l

/-! ## Board model (`BOARD_SIZE`, `empty_board`, `BoardGrid._place`) -/

def BOARD_SIZE : Nat := 5

def PLAYERS : List String := ["white", "black"]

def WIN_CONDITIONS : List String := ["capture_chief", "cross_piece"]

/-- `empty_board()`: a 5×5 grid of `None` cells. -/
def empty_board : List (List Json) :=
  List.replicate BOARD_SIZE (List.replicate BOARD_SIZE Json.null)

/-- The empty board as the JSON value stored in a puzzle step. -/
def emptyBoardJson : Json :=
  .arr (List.replicate BOARD_SIZE (.arr (List.replicate BOARD_SIZE .null)))

/-- `BoardGrid._place(row, col, piece)`: the single statement
`self._board[row][col] = piece`.  Python evaluates `self._board[row]`
first (negative indices count from the end; out of range raises
`IndexError`), then assigns into that row. -/
def place (b : List (List Json)) (row col : Int) (piece : Json) :
    Except PyErr (List (List Json)) :=
  match pyGetIdx b row with
  | none => .error .indexError
  | some r =>
    match pySetIdx r col piece with
    | none => .error .indexError
    | some r' => .ok (b.set (pyNorm row b.length).toNat r')

/-! ## Dialog editor buffer (`DialogEditor`) -/

/-- `DialogEditor.get_step_data()`. -/
def dialog_get_step_data (lines : List Json) : Json :=
  .obj [("type", .str "dialog"), ("lines", .arr lines)]

/-- `DialogEditor.set_step(step)`: `self._lines = deepcopy(step.get("lines", []))`.
A present non-list value would make later code raise; modelled as `[]`. -/
def dialog_set_step (step : Json) : List Json :=
  match jGet step "lines" with
  | some (.arr ls) => ls
  | _ => []

/-- `entry.get_text().strip() or None`: a blank-after-strip entry text is
normalised to `None`. -/
def stripOrNone (text : String) : Json :=
  let t := pyStrip text
  if t = "" then .null else .str t

/-- `DialogEditor._on_field_changed`: store the stripped-or-`None` text
under `key` in line `idx` (guarded by `idx < len(self._lines)`).
A non-dict line would raise `TypeError` before mutating; modelled as the
identity. -/
def on_field_changed (lines : List Json) (idx : Nat) (key : String)
    (text : String) : List Json :=
  if idx < lines.length then
    match lines[idx]? with
    | some (.obj fs) => lines.set idx (.obj (pySetKey fs key (stripOrNone text)))
    | _ => lines
  else lines

/-! ## Puzzle editor buffer (`PuzzleEditor`) -/

/-- The data held by the `PuzzleEditor` widgets. `playerSel` / `winSel`
are the drop-down selection indices (GTK keeps them in range of the
model lists). -/
structure PuzzleBuf where
  idText : String
  titleText : String
  descText : String
  hintText : String
  oppText : String
  playerSel : Nat
  winSel : Nat
  maxMoves : Int
  board : List (List Json)
deriving DecidableEq

/-- Fresh `PuzzleEditor` widget state: empty entries, first drop-down
items selected, spin value 1, empty board. -/
def initPuzzleBuf : PuzzleBuf :=
  { idText := "", titleText := "", descText := "", hintText := "",
    oppText := "", playerSel := 0, winSel := 0, maxMoves := 1,
    board := empty_board }

/-- The opponent-moves list derived from the free-text field:
`opp_text = text.strip()`, then
`[m.strip() for m in opp_text.split(",") if m.strip()] if opp_text else []`. -/
def oppMovesOf (s : List Char) : List (List Char) :=
  let t := stripL s
  if t = [] then []
  else ((splitComma t).map stripL).filter (fun m => m ≠ [])

/-- `PuzzleEditor.get_step_data()`. Drop-down indexing (`PLAYERS[sel]`,
`WIN_CONDITIONS[sel]`) is total in Python because GTK keeps the selected
index within the string-list model; modelled with `getD`. -/
def puzzle_get_step_data (b : PuzzleBuf) : Json :=
  .obj [
    ("type", .str "puzzle"),
    ("id", .str (pyStrip b.idText)),
    ("title", .str (pyStrip b.titleText)),
    ("description", .str (pyStrip b.descText)),
    ("player", .str (PLAYERS.getD b.playerSel "white")),
    ("hint", .str (pyStrip b.hintText)),
    ("board", .arr (b.board.map Json.arr)),
    ("win_condition", .obj [
      ("type", .str (WIN_CONDITIONS.getD b.winSel "capture_chief")),
      ("max_moves", .int b.maxMoves)]),
    ("opponent_moves", .arr ((oppMovesOf b.oppText.data).map
      (fun m => Json.str (String.mk m))))]

/-- `PuzzleEditor.set_step(step)`.  String fields use `step.get(key, dflt)`;
a present non-string value would raise inside GTK `set_text` and is
modelled as the default.  `set_value` clamps into the adjustment range
`[1, 20]`.  `set_board` replaces a falsy board by the empty board. -/
def puzzle_set_step (step : Json) : PuzzleBuf :=
  let getStr : String → String → String := fun key dflt =>
    match jGet step key with
    | some (.str s) => s
    | _ => dflt
  let player := getStr "player" "white"
  let wc : List (String × Json) :=
    match jGet step "win_condition" with
    | some (.obj fs) => fs
    | _ => []
  let wcType :=
    match jLookup wc "type" with
    | some (.str s) => s
    | _ => "capture_chief"
  let maxMoves : Int :=
    match jLookup wc "max_moves" with
    | some (.int n) => n
    | _ => 1
  let oppMoves : List Json :=
    match jGet step "opponent_moves" with
    | some (.arr xs) => xs
    | _ => []
  let board : List (List Json) :=
    match jGet step "board" with
    | some b =>
      if jTruthy b then
        match b with
        | .arr rows => rows.map (fun r => match r with | .arr cs => cs | _ => [])
        | _ => empty_board
      else empty_board
    | none => empty_board
  { idText := getStr "id" "",
    titleText := getStr "title" "",
    descText := getStr "description" "",
    hintText := getStr "hint" "",
    oppText := String.intercalate ", " (oppMoves.map
      (fun j => match j with | .str s => s | _ => "")),
    playerSel := if PLAYERS.contains player then PLAYERS.indexOf player else 0,
    winSel := if WIN_CONDITIONS.contains wcType then WIN_CONDITIONS.indexOf wcType else 0,
    maxMoves := max 1 (min 20 maxMoves),
    board := board }

/-! ## Editor window state (`LevelEditorWindow`) -/

/-- The state of the editor window that the embedded handlers read and
write: the loaded chapter (`self._chapter`), the current-step pointer
(`self._current_idx`), the file-path flag, the dirty flag and the two
editing buffers. -/
structure Editor where
  chapter : Option Json
  current_idx : Int
  hasFile : Bool
  dirty : Bool
  dialogLines : List Json
  puzzle : PuzzleBuf
deriving DecidableEq

/-- A fresh editor window (`__init__`). -/
def initEditor : Editor :=
  { chapter := none, current_idx := -1, hasFile := false, dirty := false,
    dialogLines := [], puzzle := initPuzzleBuf }

/-- `_load_file` on a fresh window with a successfully parsed document `d`:
sets the chapter, clears the dirty flag and the current index. -/
def loadState (d : Json) : Editor :=
  { chapter := some d
    current_idx := -1
    hasFile := true
    dirty := false
    dialogLines := initEditor.dialogLines
    puzzle := initEditor.puzzle }

/-- The steps list as the handlers see it
(`self._chapter.get("steps", [])`, `[]` when absent or ill-shaped). -/
def stepsView (s : Editor) : List Json :=
  match s.chapter with
  | some (.obj fs) =>
    match jLookup fs "steps" with
    | some (.arr xs) => xs
    | _ => []
  | _ => []

/-- `_show_step(step)`: load the matching editor buffer from the step;
any other step shape shows the placeholder and leaves the buffers alone. -/
def show_step (s : Editor) (step : Json) : Editor :=
  match jGet step "type" with
  | some (.str "puzzle") => { s with puzzle := puzzle_set_step step }
  | some (.str "dialog") => { s with dialogLines := dialog_set_step step }
  | _ => s

/-- Replace the value of the `"steps"` key of the chapter (the Python
code mutates the list object shared with the dict). -/
def setSteps (s : Editor) (fs : List (String × Json)) (steps : List Json) : Editor :=
  { s with chapter := some (.obj (pySetKey fs "steps" (.arr steps))) }

/-- `LevelEditorWindow._flush`: write the active editor buffer back into
`steps[self._current_idx]`, dispatching on that step's `"type"`.
Guarded by `self._current_idx < 0 or not self._chapter` and by
`self._current_idx >= len(steps)`.  Paths that raise in Python before
mutating (non-dict chapter, non-list steps, non-dict step) leave the
state unchanged. -/
def flushEditor (s : Editor) : Editor :=
  if s.current_idx < 0 ∨ ¬ truthyOpt s.chapter then s
  else
    match s.chapter with
    | some (.obj fs) =>
      match jLookup fs "steps" with
      | some (.arr steps) =>
        if s.current_idx < (steps.length : Int) then
          match steps[s.current_idx.toNat]? with
          | some step =>
            match jGet step "type" with
            | some (.str "puzzle") =>
              setSteps s fs (steps.set s.current_idx.toNat (puzzle_get_step_data s.puzzle))
            | some (.str "dialog") =>
              setSteps s fs (steps.set s.current_idx.toNat (dialog_get_step_data s.dialogLines))
            | _ => s
          | none => s
        else s
      | _ => s
    | _ => s

/-- `LevelEditorWindow._delete_step`.  Out-of-bounds current indices hit
the guards and return silently; a truthy non-dict chapter raises
`AttributeError` at `.get`, and a truthy non-list `"steps"` value raises
`TypeError` at `len`.  After an in-bounds delete the new current index is
`min(index, len(steps) - 1)` over the shortened list, and the now-current
step (if any) is shown. -/
def delete_step (s : Editor) : Except PyErr Editor :=
  if ¬ truthyOpt s.chapter ∨ s.current_idx < 0 then .ok s
  else
    match s.chapter with
    | some (.obj fs) =>
      match jLookup fs "steps" with
      | none => .ok s
      | some (.arr steps) =>
        if steps.isEmpty ∨ (steps.length : Int) ≤ s.current_idx then .ok s
        else
          let i := s.current_idx.toNat
          let steps' := steps.eraseIdx i
          let cur' : Int := min s.current_idx ((steps'.length : Int) - 1)
          let s' := { setSteps s fs steps' with current_idx := cur', dirty := true }
          if 0 ≤ cur' then
            match steps'[cur'.toNat]? with
            | some st => .ok (show_step s' st)
            | none => .error .indexError
          else .ok s'
      | some v => if ¬ jTruthy v then .ok s else .error .typeError
    | some _ => .error .attributeError
    | none => .ok s

/-- The state evolution of `_delete_step` (an exception aborts the
handler before any mutation, leaving the state unchanged). -/
def delete_step_state (s : Editor) : Editor :=
  match delete_step s with
  | .ok s' => s'
  | .error _ => s

/-- `LevelEditorWindow._move_step(direction)`: guard, flush, then swap
`steps[current]` with `steps[current + direction]` when the neighbour
index is in bounds, the current index following the moved step.  Reading
`steps[current]` with a stale out-of-range current index raises and
aborts after the flush. -/
def move_step (dir : Int) (s : Editor) : Editor :=
  if ¬ truthyOpt s.chapter ∨ s.current_idx < 0 then s
  else
    let s₁ := flushEditor s
    match s₁.chapter with
    | some (.obj fs) =>
      match jLookup fs "steps" with
      | some (.arr steps) =>
        let new_idx := s₁.current_idx + dir
        if 0 ≤ new_idx ∧ new_idx < (steps.length : Int) then
          match steps[s₁.current_idx.toNat]?, steps[new_idx.toNat]? with
          | some a, some b =>
            { setSteps s₁ fs ((steps.set s₁.current_idx.toNat b).set new_idx.toNat a) with
              current_idx := new_idx, dirty := true }
          | _, _ => s₁
        else s₁
      | _ => s₁
    | _ => s₁

/-- `f"{x}"` for the values the editor can meet as a chapter number.
Container `repr`s are not modelled (no claim exercises them). -/
def pyFStr : Json → String
  | .int n => toString n
  | .str s => s
  | .null => "None"
  | .bool true => "True"
  | .bool false => "False"
  | .arr _ => "<list>"
  | .obj _ => "<dict>"

/-- `f"{n:02d}"` for a natural number. -/
def pad2 (n : Nat) : String :=
  if n < 10 then "0" ++ toString n else toString n

/-- The auto-generated puzzle id `f"ch{chapter_num}_p{puzzle_count:02d}"`. -/
def mkPuzzleId (chapterVal : Json) (count : Nat) : String :=
  "ch" ++ pyFStr chapterVal ++ "_p" ++ pad2 count

/-- The new dialog step built by `_add_step("dialog")`. -/
def new_dialog_step : Json :=
  .obj [("type", .str "dialog"),
        ("lines", .arr [.obj [("speaker", .null), ("portrait", .null),
                              ("text", .str "")]])]

/-- The new puzzle step built by `_add_step` for any non-dialog kind. -/
def new_puzzle_step (chapterVal : Json) (count : Nat) : Json :=
  .obj [("type", .str "puzzle"),
        ("id", .str (mkPuzzleId chapterVal count)),
        ("title", .str "New Puzzle"),
        ("description", .str ""),
        ("player", .str "white"),
        ("hint", .str ""),
        ("board", emptyBoardJson),
        ("win_condition", .obj [("type", .str "capture_chief"),
                                ("max_moves", .int 1)]),
        ("opponent_moves", .arr [])]

/-- `sum(1 for s in steps if s.get("type") == "puzzle")`.  A non-dict
step raises in Python; here it simply does not count (every claim about
this count carries an all-dict hypothesis). -/
def countPuzzles (steps : List Json) : Nat :=
  (steps.filter (fun st =>
    match jGet st "type" with
    | some (.str t) => t = "puzzle"
    | _ => false)).length

/-- `LevelEditorWindow._add_step(step_type)`: guard, flush,
`steps = self._chapter.setdefault("steps", [])`, insert the new step
after the active one (or append), make it current, load it into its
editor buffer and mark dirty.  A truthy non-list `"steps"` value raises
before any mutation and aborts with the flushed state. -/
def add_step (kind : String) (s : Editor) : Editor :=
  if ¬ truthyOpt s.chapter then s
  else
    let s₁ := flushEditor s
    match s₁.chapter with
    | some (.obj fs) =>
      let stepsFs : Option (List Json × List (String × Json)) :=
        match jLookup fs "steps" with
        | some (.arr xs) => some (xs, fs)
        | none => some ([], pySetKey fs "steps" (.arr []))
        | some _ => none
      match stepsFs with
      | none => s₁
      | some (steps, fs₁) =>
        let insert_at : Int :=
          if 0 ≤ s₁.current_idx then s₁.current_idx + 1 else (steps.length : Int)
        let new_step :=
          if kind = "dialog" then new_dialog_step
          else new_puzzle_step (jLookupD fs₁ "chapter" (.int 1)) (countPuzzles steps + 1)
        let s₂ := { setSteps s₁ fs₁ (pyInsert steps insert_at new_step) with
                    current_idx := insert_at, dirty := true }
        show_step s₂ new_step
    | _ => s₁

/-! ## The §4.3 mutation operations as a transition system -/

/-- One §4.3 mutation operation of the editor (insert a dialog or puzzle
step, delete, move, flush). -/
inductive Op where
  | addStep (kind : String)
  | deleteStep
  | moveStep (dir : Int)
  | flushOp
deriving DecidableEq, Repr

/-- Apply one operation to the editor state. -/
def applyOp : Op → Editor → Editor
  | .addStep k, s => add_step k s
  | .deleteStep, s => delete_step_state s
  | .moveStep d, s => move_step d s
  | .flushOp, s => flushEditor s

/-- Apply a sequence of operations. -/
def applyOps (ops : List Op) (s : Editor) : Editor :=
  ops.foldl (fun s op => applyOp op s) s

/-- The spec's current-step invariant: the pointer is `-1` (none) or a
valid index into `steps`. -/
def Inv (s : Editor) : Prop :=
  s.current_idx = -1 ∨
    (0 ≤ s.current_idx ∧ s.current_idx < ((stepsView s).length : Int))

/-! ## Serialization: `json.dump(chapter, fh, indent=2)`

The Python standard library's `json` module is the (external) code run
by `_save_file` / `_load_file`; its behaviour is modelled here at the
level exercised by the editor: values per the `Json` type above (numbers
are integers), `ensure_ascii=True` string escaping, `indent=2` layout. -/

/-- JSON inter-token whitespace (the set accepted by `json.load`). -/
def jsonWs (c : Char) : Bool :=
  c = ' ' ∨ c = '\t' ∨ c = '\n' ∨ c = '\r'

/-- Skip inter-token whitespace. -/
def skipWs (s : List Char) : List Char := s.dropWhile jsonWs

/-- Decimal digits, fuelled so that the definition is structurally
recursive (the fuel bounds the number of digits). -/
def renderNatAux : Nat → Nat → List Char
  | 0, _ => []
  | fuel + 1, n =>
    if n < 10 then [Nat.digitChar n]
    else renderNatAux fuel (n / 10) ++ [Nat.digitChar (n % 10)]

/-- Decimal digits of a natural number, most significant first. -/
def renderNat (n : Nat) : List Char := renderNatAux (n + 1) n



/-- `repr` of a Python integer. -/
def renderInt (i : Int) : List Char :=
  if i < 0 then '-' :: renderNat (-i).toNat else renderNat i.toNat

/-- Four lowercase hex digits, as in Python's `\u%04x` escapes. -/
def toHex4 (n : Nat) : List Char :=
  [Nat.digitChar (n / 4096 % 16), Nat.digitChar (n / 256 % 16),
   Nat.digitChar (n / 16 % 16), Nat.digitChar (n % 16)]

/-- `ensure_ascii=True` escaping of one character: the short escapes for
`"`, `\` and the named control characters, `\uXXXX` for every other
character outside printable ASCII (as a surrogate pair beyond the basic
plane), the character itself otherwise. -/
def escapeChar (c : Char) : List Char :=
  if c = '"' then ['\\', '"']
  else if c = '\\' then ['\\', '\\']
  else
    let n := c.toNat
    if n = 8 then ['\\', 'b']
    else if n = 9 then ['\\', 't']
    else if n = 10 then ['\\', 'n']
    else if n = 12 then ['\\', 'f']
    else if n = 13 then ['\\', 'r']
    else if n < 0x20 ∨ 0x7e < n then
      if n ≤ 0xffff then '\\' :: 'u' :: toHex4 n
      else
        let m := n - 0x10000
        '\\' :: 'u' :: (toHex4 (0xd800 + m / 0x400) ++
          '\\' :: 'u' :: toHex4 (0xdc00 + m % 0x400))
    else [c]

/-- Escape a whole string body. -/
def escapeStr : List Char → List Char
  | [] => []
  | c :: cs => escapeChar c ++ escapeStr cs

/-- Two spaces of indentation per level (`indent=2`). -/
def jIndent (lvl : Nat) : List Char := List.replicate (2 * lvl) ' '

mutual

/-- `json.dump(v, fh, indent=2)`: the characters written for a value at
nesting level `lvl`. -/
def dumps : Json → Nat → List Char
  | .null, _ => ['n', 'u', 'l', 'l']
  | .bool true, _ => ['t', 'r', 'u', 'e']
  | .bool false, _ => ['f', 'a', 'l', 's', 'e']
  | .int n, _ => renderInt n
  | .str s, _ => '"' :: (escapeStr s.data ++ ['"'])
  | .arr [], _ => ['[', ']']
  | .arr (x :: xs), lvl =>
    '[' :: '\n' :: (jIndent (lvl + 1) ++ dumpsElems (x :: xs) (lvl + 1) ++
      '\n' :: (jIndent lvl ++ [']']))
  | .obj [], _ => ['{', '}']
  | .obj (f :: fs), lvl =>
    '{' :: '\n' :: (jIndent (lvl + 1) ++ dumpsFields (f :: fs) (lvl + 1) ++
      '\n' :: (jIndent lvl ++ ['}']))
termination_by structural j _ => j

/-- Array elements, separated by `",\n" + indent`. -/
def dumpsElems : List Json → Nat → List Char
  | [], _ => []
  | [x], lvl => dumps x lvl
  | x :: y :: xs, lvl =>
    dumps x lvl ++ ',' :: '\n' :: (jIndent lvl ++ dumpsElems (y :: xs) lvl)
termination_by structural xs _ => xs

/-- Object members `"key": value`, separated by `",\n" + indent`. -/
def dumpsFields : List (String × Json) → Nat → List Char
  | [], _ => []
  | [(k, v)], lvl =>
    '"' :: (escapeStr k.data ++ '"' :: ':' :: ' ' :: dumps v lvl)
  | (k, v) :: g :: fs, lvl =>
    '"' :: (escapeStr k.data ++ '"' :: ':' :: ' ' :: dumps v lvl) ++
      ',' :: '\n' :: (jIndent lvl ++ dumpsFields (g :: fs) lvl)
termination_by structural fs _ => fs

end

/-! ## Parsing: `json.load` -/

/-- Value of one hex digit (both cases, like Python's `int(s, 16)`). -/
def hexVal (c : Char) : Option Nat :=
  if '0' ≤ c ∧ c ≤ '9' then some (c.toNat - 48)
  else if 'a' ≤ c ∧ c ≤ 'f' then some (c.toNat - 87)
  else if 'A' ≤ c ∧ c ≤ 'F' then some (c.toNat - 55)
  else none

/-- Value of a `\uXXXX` escape's four hex digits. -/
def hex4 (a b c d : Char) : Option Nat := do
  let x ← hexVal a
  let y ← hexVal b
  let z ← hexVal c
  let w ← hexVal d
  pure (4096 * x + 256 * y + 16 * z + w)

/-- Prepend a decoded character to a string-parse result. -/
def consChar (c : Char) : Option (List Char × List Char) → Option (List Char × List Char)
  | some (s, r) => some (c :: s, r)
  | none => none

/-- Read the four hex digits of a `\uXXXX` escape. -/
def parseUEsc : List Char → Option (Nat × List Char)
  | h1 :: h2 :: h3 :: h4 :: rest => (hex4 h1 h2 h3 h4).map (fun n => (n, rest))
  | _ => none

/-- Accept only a low-surrogate code unit. -/
def lowSurrCheck : Nat × List Char → Option (Nat × List Char)
  | (m, rest) => if 56320 ≤ m ∧ m < 57344 then some (m, rest) else none

/-- Read a following `\uXXXX` low surrogate. -/
def parseLowSurr : List Char → Option (Nat × List Char)
  | b :: e :: rest =>
    if b = '\\' ∧ e = 'u' then (parseUEsc rest).bind lowSurrCheck else none
  | _ => none

mutual

/-- The JSON string scanner, after the opening quote: decodes escapes
(including surrogate pairs) up to the closing quote and returns the
remaining input.  In strict mode raw control characters are rejected.
Lone surrogates (which Python's decoder tolerates but Lean strings
cannot represent, and which the encoder never emits) are rejected.
Fuelled; callers pass at least the input length plus one, and every
step consumes at least one character. -/
def parseStringBody : Nat → List Char → Option (List Char × List Char)
  | 0, _ => none
  | _ + 1, [] => none
  | fuel + 1, c :: rest =>
    if c = '"' then some ([], rest)
    else if c = '\\' then parseEscape fuel rest
    else if c.toNat < 32 then none
    else consChar c (parseStringBody fuel rest)
termination_by structural fuel _ => fuel

/-- Decode one backslash escape and continue scanning. -/
def parseEscape : Nat → List Char → Option (List Char × List Char)
  | 0, _ => none
  | _ + 1, [] => none
  | fuel + 1, e :: rest =>
    if e = 'u' then (parseUEsc rest).bind (parseUCont fuel)
    else if e = '"' then consChar '"' (parseStringBody fuel rest)
    else if e = '\\' then consChar '\\' (parseStringBody fuel rest)
    else if e = '/' then consChar '/' (parseStringBody fuel rest)
    else if e = 'b' then consChar (Char.ofNat 8) (parseStringBody fuel rest)
    else if e = 'f' then consChar (Char.ofNat 12) (parseStringBody fuel rest)
    else if e = 'n' then consChar '\n' (parseStringBody fuel rest)
    else if e = 'r' then consChar '\r' (parseStringBody fuel rest)
    else if e = 't' then consChar '\t' (parseStringBody fuel rest)
    else none
termination_by structural fuel _ => fuel

/-- Continue after the four hex digits of a `\uXXXX` escape: a high
surrogate must be followed by a low surrogate, a lone low surrogate is
rejected, anything else is the decoded character. -/
def parseUCont : Nat → Nat × List Char → Option (List Char × List Char)
  | 0, _ => none
  | fuel + 1, (n, rest₂) =>
    if 55296 ≤ n ∧ n < 56320 then (parseLowSurr rest₂).bind (parsePairCont fuel n)
    else if 56320 ≤ n ∧ n < 57344 then none
    else consChar (Char.ofNat n) (parseStringBody fuel rest₂)
termination_by structural fuel _ => fuel

/-- Combine a surrogate pair and continue scanning. -/
def parsePairCont : Nat → Nat → Nat × List Char → Option (List Char × List Char)
  | 0, _, _ => none
  | fuel + 1, n, (m, rest₃) =>
    consChar (Char.ofNat (65536 + (n - 55296) * 1024 + (m - 56320)))
      (parseStringBody fuel rest₃)
termination_by structural fuel _ _ => fuel

end

/-- The string scanner with enough fuel for its input (each input
character costs at most four fuel). -/
def parseString (s : List Char) : Option (List Char × List Char) :=
  parseStringBody (4 * (s.length + 1)) s

/-- Consume a run of decimal digits, folding into an accumulator. -/
def parseDigits : List Char → Nat → Nat × List Char
  | [], acc => (acc, [])
  | c :: cs, acc =>
    if '0' ≤ c ∧ c ≤ '9' then parseDigits cs (10 * acc + (c.toNat - 48))
    else (acc, c :: cs)

/-- An unsigned JSON integer token: `0`, or a nonzero leading digit
followed by any digits (the JSON number grammar forbids leading zeros). -/
def parseUNum : List Char → Option (Nat × List Char)
  | [] => none
  | c :: rest =>
    if c = '0' then some (0, rest)
    else if '0' ≤ c ∧ c ≤ '9' then some (parseDigits rest (c.toNat - 48))
    else none

/-- A signed JSON integer token.  (Fractions and exponents are outside
the model: numbers here are integers.) -/
def parseIntTok : List Char → Option (Json × List Char)
  | [] => none
  | c :: rest =>
    if c = '-' then (parseUNum rest).map (fun p => (.int (-(p.1 : Int)), p.2))
    else (parseUNum (c :: rest)).map (fun p => (.int (p.1 : Int), p.2))

/-- Build a Python dict from parsed key/value pairs: each pair is a dict
assignment, so a duplicate key overwrites the value in place. -/
def collapseFields (ms : List (String × Json)) : List (String × Json) :=
  ms.foldl (fun acc kv => pySetKey acc kv.1 kv.2) []

/-- Match the remaining characters of a literal token (`null`, `true`,
`false`) and return the given value. -/
def expectLit (v : Json) : List Char → List Char → Option (Json × List Char)
  | [], rest => some (v, rest)
  | _ :: _, [] => none
  | l :: ls, c :: rest => if c = l then expectLit v ls rest else none

/-- Wrap a parsed string body as a JSON string value. -/
def strCont : List Char × List Char → Option (Json × List Char)
  | (cs, r) => some (.str (String.mk cs), r)

/-- Wrap parsed elements as a JSON array value. -/
def arrCont : List Json × List Char → Option (Json × List Char)
  | (xs, r) => some (.arr xs, r)

/-- Wrap parsed members as a JSON object value (building the dict
collapses duplicate keys, as `dict(pairs)` does). -/
def objCont : List (String × Json) × List Char → Option (Json × List Char)
  | (ms, r) => some (.obj (collapseFields ms), r)

/-- Prepend an element to a parsed tail of array elements. -/
def consElem (j : Json) : List Json × List Char → Option (List Json × List Char)
  | (js, r) => some (j :: js, r)

/-- Prepend a member to a parsed tail of object members. -/
def consMember (k : String) (v : Json) :
    List (String × Json) × List Char → Option (List (String × Json) × List Char)
  | (ms, r) => some ((k, v) :: ms, r)

mutual

/-- The JSON value parser (fuelled recursive descent; the caller has
skipped leading whitespace). -/
def parseValue : Nat → List Char → Option (Json × List Char)
  | 0, _ => none
  | _ + 1, [] => none
  | fuel + 1, c :: rest =>
    if c = 'n' then expectLit .null ['u', 'l', 'l'] rest
    else if c = 't' then expectLit (.bool true) ['r', 'u', 'e'] rest
    else if c = 'f' then expectLit (.bool false) ['a', 'l', 's', 'e'] rest
    else if c = '"' then (parseString rest).bind strCont
    else if c = '[' then arrStep fuel (skipWs rest)
    else if c = '{' then objStep fuel (skipWs rest)
    else parseIntTok (c :: rest)
termination_by structural fuel _ => fuel

/-- After `[` and whitespace: either the empty array or its elements. -/
def arrStep : Nat → List Char → Option (Json × List Char)
  | 0, _ => none
  | _ + 1, [] => none
  | fuel + 1, d :: r =>
    if d = ']' then some (.arr [], r)
    else (parseElems fuel (d :: r)).bind arrCont
termination_by structural fuel _ => fuel

/-- After `{` and whitespace: either the empty object or its members. -/
def objStep : Nat → List Char → Option (Json × List Char)
  | 0, _ => none
  | _ + 1, [] => none
  | fuel + 1, d :: r =>
    if d = '}' then some (.obj [], r)
    else (parseMembers fuel (d :: r)).bind objCont
termination_by structural fuel _ => fuel

/-- Elements of a non-empty array, from the first element up to the
closing bracket. -/
def parseElems : Nat → List Char → Option (List Json × List Char)
  | 0, _ => none
  | fuel + 1, s => (parseValue fuel s).bind (elemsCont fuel)
termination_by structural fuel _ => fuel

/-- After one array element: skip whitespace and dispatch. -/
def elemsCont : Nat → Json × List Char → Option (List Json × List Char)
  | 0, _ => none
  | fuel + 1, (j, r) => elemsStep fuel j (skipWs r)
termination_by structural fuel _ => fuel

/-- After one array element: a comma continues, a bracket closes. -/
def elemsStep : Nat → Json → List Char → Option (List Json × List Char)
  | 0, _, _ => none
  | _ + 1, _, [] => none
  | fuel + 1, j, d :: r =>
    if d = ',' then (parseElems fuel (skipWs r)).bind (consElem j)
    else if d = ']' then some ([j], r)
    else none
termination_by structural fuel _ _ => fuel

/-- Members of a non-empty object, from the first key up to the closing
brace. -/
def parseMembers : Nat → List Char → Option (List (String × Json) × List Char)
  | 0, _ => none
  | _ + 1, [] => none
  | fuel + 1, c :: rest =>
    if c = '"' then (parseString rest).bind (keyCont fuel)
    else none
termination_by structural fuel _ => fuel

/-- After an object key: skip whitespace and dispatch. -/
def keyCont : Nat → List Char × List Char → Option (List (String × Json) × List Char)
  | 0, _ => none
  | fuel + 1, (k, r₁) => keyStep fuel (String.mk k) (skipWs r₁)
termination_by structural fuel _ => fuel

/-- After an object key: expect a colon, then the value. -/
def keyStep : Nat → String → List Char → Option (List (String × Json) × List Char)
  | 0, _, _ => none
  | _ + 1, _, [] => none
  | fuel + 1, k, d :: r₂ =>
    if d = ':' then (parseValue fuel (skipWs r₂)).bind (valCont fuel k)
    else none
termination_by structural fuel _ _ => fuel

/-- After an object value: skip whitespace and dispatch. -/
def valCont : Nat → String → Json × List Char → Option (List (String × Json) × List Char)
  | 0, _, _ => none
  | fuel + 1, k, (v, r₃) => valStep fuel k v (skipWs r₃)
termination_by structural fuel _ _ => fuel

/-- After an object value: a comma continues, a brace closes. -/
def valStep : Nat → String → Json → List Char → Option (List (String × Json) × List Char)
  | 0, _, _, _ => none
  | _ + 1, _, _, [] => none
  | fuel + 1, k, v, d :: r₄ =>
    if d = ',' then (parseMembers fuel (skipWs r₄)).bind (consMember k v)
    else if d = '}' then some ([(k, v)], r₄)
    else none
termination_by structural fuel _ _ _ => fuel

end

/-- `json.load`: one value surrounded by optional whitespace; anything
after it is an "extra data" error. -/
def loads (s : List Char) : Option Json :=
  match parseValue (3 * s.length + 1) (skipWs s) with
  | some (j, r) => if skipWs r = [] then some j else none
  | none => none

/-- `_save_file`'s write: `json.dump(self._chapter, fh, indent=2)`
followed by `fh.write("\n")`. -/
def save_chapter (j : Json) : String := String.mk (dumps j 0 ++ ['\n'])

/-- `_load_file`'s read of a file's contents: `json.load(fh)`. -/
def load_file (s : String) : Option Json := loads s.data

/-- `LevelEditorWindow._save_file`: no-op without a truthy chapter or a
file path; otherwise flush the active buffer into the chapter and write
it out.  Returns the written file contents. -/
def save_editor (s : Editor) : Option String :=
  match s.chapter with
  | none => none
  | some ch =>
    if ¬ jTruthy ch then none
    else if ¬ s.hasFile then none
    else
      match (flushEditor s).chapter with
      | some ch' => some (save_chapter ch')
      | none => none

/-- Save the editor's document and parse the written file back. -/
def editorRoundTrip (s : Editor) : Option Json := (save_editor s).bind load_file

/-! ## Well-formedness and Python equality of JSON values -/

/-- No duplicate keys in a field list (always true of a Python dict). -/
def noDupKeys : List (String × Json) → Bool
  | [] => true
  | (k, _) :: t => (!(t.any (fun p => p.1 == k))) && noDupKeys t

mutual

/-- A JSON value is well-formed when every object in it has unique keys
— exactly the values representable as Python objects. -/
def jsonWF : Json → Bool
  | .arr xs => jsonWFList xs
  | .obj fs => noDupKeys fs && jsonWFFields fs
  | _ => true
termination_by structural j => j

def jsonWFList : List Json → Bool
  | [] => true
  | x :: xs => jsonWF x && jsonWFList xs
termination_by structural xs => xs

def jsonWFFields : List (String × Json) → Bool
  | [] => true
  | (_, v) :: fs => jsonWF v && jsonWFFields fs
termination_by structural fs => fs

end

mutual

/-- Python `==` on decoded JSON values: dict comparison ignores key
order (same key set, equal values per key). -/
def jsonPyEq : Json → Json → Bool
  | .null, .null => true
  | .bool a, .bool b => a == b
  | .int a, .int b => a == b
  | .str a, .str b => a == b
  | .arr a, .arr b => jsonPyEqList a b
  | .obj a, .obj b => a.length == b.length && jsonPyEqFields a b
  | _, _ => false
termination_by structural a _ => a

def jsonPyEqList : List Json → List Json → Bool
  | [], [] => true
  | x :: xs, y :: ys => jsonPyEq x y && jsonPyEqList xs ys
  | _, _ => false
termination_by structural a _ => a

def jsonPyEqFields : List (String × Json) → List (String × Json) → Bool
  | [], _ => true
  | (k, v) :: t, b =>
    (match jLookup b k with
     | some w => jsonPyEq v w
     | none => false) && jsonPyEqFields t b
termination_by structural a _ => a

end

/-! ## Dev server data-path check (`DevHandler._serve_data_file`)

Paths are modelled as lists of segments; `PROJECT_ROOT` (already
resolved in the Python code) is a parameter.  `Path.resolve()` without
symlinks normalises `.` and `..` segments. -/

/-- `url_path.lstrip("/")`. -/
def lstripSlash (s : List Char) : List Char := s.dropWhile (fun c => c = '/')

/-- The segments of a relative path string, as `PurePath` parses it:
split on `/`, dropping empty and `.` segments. -/
def pathSegs (s : List Char) : List String :=
  (splitSep '/' s).filterMap
    (fun seg => if seg = [] ∨ seg = ['.'] then none else some (String.mk seg))

/-- `(root / rel).resolve()` in the absence of symlinks: append the
relative segments to the resolved root, `..` popping one segment
(the filesystem root is its own parent). -/
def resolveSegs (root : List String) (rel : List String) : List String :=
  rel.foldl (fun acc seg => if seg = ".." then acc.dropLast else acc ++ [seg]) root

/-- `str(path)` of an absolute path given by its segments. -/
def pathStr (segs : List String) : List Char :=
  '/' :: (String.intercalate "/" segs).data

/-- The security check of `_serve_data_file`:
`str(file_path.resolve()).startswith(str(DATA_DIR.resolve()))`, where
`file_path = PROJECT_ROOT / url_path.lstrip("/")` and
`DATA_DIR = PROJECT_ROOT / "data"`.  `true` means the request is served
(if the file exists). -/
def serve_data_check (root : List String) (url : List Char) : Bool :=
  let rel := lstripSlash url
  let fp := resolveSegs root (pathSegs rel)
  (pathStr (root ++ ["data"])).isPrefixOf (pathStr fp)

/-- The property the check is meant to enforce: the resolved path lies
under the project's `data` directory. -/
def underDataDir (root : List String) (fp : List String) : Bool :=
  (root ++ ["data"]).isPrefixOf fp

/-! ## Auxiliary definitions used by the proofs and claim statements -/

/-- A decimal digit character test, as the parser uses it. -/
def isDigitCh (c : Char) : Prop := '0' ≤ c ∧ c ≤ '9'

instance (c : Char) : Decidable (isDigitCh c) := by unfold isDigitCh; infer_instance

/-- The input continues with something that cannot extend a number. -/
def headNotDigit : List Char → Prop
  | [] => True
  | c :: _ => ¬ isDigitCh c

/-- The digit-fold step of `parseDigits`. -/
def digStep (a : Nat) (c : Char) : Nat := 10 * a + (c.toNat - 48)

/-! ## Fuel measures for the value parser -/

mutual

/-- Fuel needed by `parseValue` for a value. -/
def sizeV : Json → Nat
  | .arr xs => 2 + sizeL xs
  | .obj fs => 2 + sizeM fs
  | _ => 1
termination_by structural j => j

/-- Fuel needed by `parseElems` for an element list. -/
def sizeL : List Json → Nat
  | [] => 1
  | x :: xs => 3 + sizeV x + sizeL xs
termination_by structural xs => xs

/-- Fuel needed by `parseMembers` for a member list. -/
def sizeM : List (String × Json) → Nat
  | [] => 1
  | (_, v) :: fs => 5 + sizeV v + sizeM fs
termination_by structural fs => fs

end

/-- Heads that cannot be confused with separators or whitespace. -/
def goodHead : List Char → Prop
  | [] => False
  | c :: _ => ¬ jsonWs c ∧ c ≠ ']' ∧ c ≠ '}' ∧ c ≠ ','

/-- Replace the last token of a split (used to state how a separator-free
suffix attaches to the final token). -/
def lastMap (f : List Char → List Char) : List (List Char) → List (List Char)
  | [] => []
  | [x] => [f x]
  | x :: y :: ys => x :: lastMap f (y :: ys)

/-- The spec's wording of the opponent-moves derivation: split the
free-text field on commas, trim whitespace from each token, and drop
the empty tokens. -/
def spec_opponent_moves (s : List Char) : List (List Char) :=
  ((splitComma s).map stripL).filter (fun m => m ≠ [])

/-- The editor state after `_move_step(+1)` swapped the active step `a`
with its successor `b`. -/
def movedState (s : Editor) (fs : List (String × Json)) (steps : List Json)
    (a b : Json) : Editor :=
  { setSteps s fs ((steps.set s.current_idx.toNat b).set
      (s.current_idx + 1).toNat a) with
    current_idx := s.current_idx + 1, dirty := true }

def c1Good : Json :=
  .obj [("chapter", .int 1), ("title", .str "T"), ("steps", .arr [])]

def c1Doc : Json :=
  .obj [("chapter", .int 1), ("title", .str "T"),
        ("steps", .arr [.obj [("type", .str "puzzle"), ("id", .str "ch1_p01"),
                              ("note", .str "keep me")]])]

def c1Flushed : Json :=
  .obj [("chapter", .int 1), ("title", .str "T"),
        ("steps", .arr [.obj [
          ("type", .str "puzzle"), ("id", .str "ch1_p01"), ("title", .str ""),
          ("description", .str ""), ("player", .str "white"), ("hint", .str ""),
          ("board", emptyBoardJson),
          ("win_condition", .obj [("type", .str "capture_chief"),
                                  ("max_moves", .int 1)]),
          ("opponent_moves", .arr [])]])]

def c2Editor : Editor :=
  { chapter := some (.obj [("chapter", .int 1),
      ("steps", .arr [.obj [("type", .str "dialog"), ("lines", .arr [])]])])
    current_idx := 99
    hasFile := true
    dirty := false
    dialogLines := []
    puzzle := initPuzzleBuf }

def c3Step : Json :=
  .obj [("type", .str "puzzle"), ("id", .str "ch1_p01"),
        ("board", emptyBoardJson),
        ("win_condition", .obj [("type", .str "capture_chief"),
                                ("max_moves", .int 1)]),
        ("player", .str "white"), ("opponent_moves", .arr [])]

def c3Doc : Json :=
  .obj [("chapter", .int 1), ("title", .str "T"), ("steps", .arr [c3Step])]

def c5Doc : Json :=
  .obj [("chapter", .int 1),
        ("steps", .arr [.obj [("type", .str "dialog"), ("lines", .arr [])]])]

def c5Editor : Editor := { loadState c5Doc with current_idx := 0 }

def c7Step1 : Json := .obj [("type", .str "dialog"), ("lines", .arr [])]

def c7Step2 : Json := .obj [("type", .str "puzzle"), ("id", .str "p")]

def c7Doc : Json :=
  .obj [("chapter", .int 1), ("steps", .arr [c7Step1, c7Step2])]

def c7Editor : Editor := { loadState c7Doc with current_idx := 0 }

def c8Result : List (List Json) :=
  List.replicate 4 (List.replicate 5 Json.null) ++
    [[Json.str "W", Json.null, Json.null, Json.null, Json.null]]

def c10Root : List String := ["home", "u", "wachesaw"]

def c10Url : List Char := "/data/../datasets/secret.json".data

/-! # Proofs

## Whitespace and character facts -/

theorem renderNatAux_irrel : ∀ (f₁ f₂ n : Nat), n < f₁ → n < f₂ →
    renderNatAux f₁ n = renderNatAux f₂ n := by
  intro f₁
  induction f₁ with
  | zero => intro f₂ n h; omega
  | succ f ih =>
    intro f₂ n h1 h2
    obtain ⟨g, rfl⟩ : ∃ g, f₂ = g + 1 := ⟨f₂ - 1, by omega⟩
    by_cases hn : n < 10
    · simp [renderNatAux, hn]
    · have hlt : n / 10 < n := Nat.div_lt_self (by omega) (by omega)
      simp only [renderNatAux, hn, if_false]
      rw [ih g (n / 10) (by omega) (by omega)]

/-- The recursive unfolding of `renderNat`. -/
theorem renderNat_eq (n : Nat) : renderNat n =
    if n < 10 then [Nat.digitChar n]
    else renderNat (n / 10) ++ [Nat.digitChar (n % 10)] := by
  show renderNatAux (n + 1) n = _
  by_cases hn : n < 10
  · simp [renderNatAux, hn]
  · have hlt : n / 10 < n := Nat.div_lt_self (by omega) (by omega)
    simp only [renderNatAux, hn, if_false]
    rw [renderNatAux_irrel n (n / 10 + 1) (n / 10) (by omega) (by omega)]
    rfl


theorem skipWs_cons_not {c : Char} (s : List Char) (h : ¬ jsonWs c) :
    skipWs (c :: s) = c :: s := by
  simp [skipWs, List.dropWhile_cons, h]

theorem skipWs_allWs_append {pad : List Char} (s : List Char)
    (h : ∀ c ∈ pad, jsonWs c) : skipWs (pad ++ s) = skipWs s := by
  induction pad with
  | nil => rfl
  | cons c t ih =>
    have hc : jsonWs c := h c (by simp)
    simp only [List.cons_append, skipWs, List.dropWhile_cons, hc, if_true]
    exact ih (fun x hx => h x (by simp [hx]))

theorem jIndent_ws (lvl : Nat) : ∀ c ∈ jIndent lvl, jsonWs c := by
  intro c hc
  simp only [jIndent, List.mem_replicate] at hc
  simp [jsonWs, hc.2]



theorem ws_not_digit {c : Char} (h : jsonWs c) : ¬ isDigitCh c := by
  simp only [jsonWs, decide_eq_true_eq] at h
  rcases h with h | h | h | h <;> subst h <;> decide

theorem digitChar_isDigit : ∀ k < 10, isDigitCh (Nat.digitChar k) := by decide

theorem digitChar_toNat : ∀ k < 10, (Nat.digitChar k).toNat - 48 = k := by decide

theorem digitChar_ne_zero : ∀ k < 10, k ≠ 0 → Nat.digitChar k ≠ '0' := by decide

theorem digitChar_dispatch : ∀ k < 10,
    Nat.digitChar k ≠ 'n' ∧ Nat.digitChar k ≠ 't' ∧ Nat.digitChar k ≠ 'f' ∧
    Nat.digitChar k ≠ '"' ∧ Nat.digitChar k ≠ '[' ∧ Nat.digitChar k ≠ '{' ∧
    Nat.digitChar k ≠ '-' := by decide

theorem digitChar_not_ws : ∀ k < 10, ¬ jsonWs (Nat.digitChar k) := by decide

theorem digitChar_ne_close : ∀ k < 10,
    Nat.digitChar k ≠ ']' ∧ Nat.digitChar k ≠ '}' ∧ Nat.digitChar k ≠ ',' := by decide

/-! ## Decimal numbers round-trip -/

theorem renderNat_cons (m : Nat) :
    ∃ k t, renderNat m = Nat.digitChar k :: t ∧ k < 10 ∧ (m ≠ 0 → k ≠ 0) := by
  induction m using Nat.strong_induction_on with
  | _ m ih =>
    rw [renderNat_eq]
    by_cases h : m < 10
    · exact ⟨m, [], by simp [h], h, fun hm => hm⟩
    · have hlt : m / 10 < m := Nat.div_lt_self (by omega) (by omega)
      obtain ⟨k, t, ht, hk, hknz⟩ := ih (m / 10) hlt
      refine ⟨k, t ++ [Nat.digitChar (m % 10)], by simp [h, ht], hk, fun _ => ?_⟩
      exact hknz (by omega)

theorem renderNat_digits (m : Nat) : ∀ c ∈ renderNat m, isDigitCh c := by
  induction m using Nat.strong_induction_on with
  | _ m ih =>
    rw [renderNat_eq]
    by_cases h : m < 10
    · simp only [h, if_true, List.mem_singleton]
      rintro c rfl
      exact digitChar_isDigit m h
    · have hlt : m / 10 < m := Nat.div_lt_self (by omega) (by omega)
      simp only [h, if_false, List.mem_append, List.mem_singleton]
      rintro c (hc | rfl)
      · exact ih (m / 10) hlt c hc
      · exact digitChar_isDigit (m % 10) (Nat.mod_lt _ (by omega))


theorem parseDigits_run : ∀ (ds : List Char) (acc : Nat) (rest : List Char),
    (∀ c ∈ ds, isDigitCh c) → headNotDigit rest →
    parseDigits (ds ++ rest) acc = (ds.foldl digStep acc, rest) := by
  intro ds
  induction ds with
  | nil =>
    intro acc rest _ hrest
    cases rest with
    | nil => rfl
    | cons c t =>
      have hc : ¬ ('0' ≤ c ∧ c ≤ '9') := hrest
      simp [parseDigits, hc]
  | cons c t ih =>
    intro acc rest hds hrest
    have hc : ('0' ≤ c ∧ c ≤ '9') := hds c (by simp)
    simp only [List.cons_append, parseDigits, List.foldl_cons, if_pos hc]
    exact ih _ rest (fun x hx => hds x (by simp [hx])) hrest

theorem foldl_digits_renderNat (m : Nat) : ∀ acc : Nat,
    (renderNat m).foldl digStep acc = acc * 10 ^ (renderNat m).length + m := by
  induction m using Nat.strong_induction_on with
  | _ m ih =>
    intro acc
    conv_lhs => rw [renderNat_eq]
    conv_rhs => rw [renderNat_eq]
    by_cases h : m < 10
    · simp only [h, if_true, List.foldl_cons, List.foldl_nil, List.length_singleton,
        pow_one, digStep]
      rw [digitChar_toNat m h]
      ring
    · have hlt : m / 10 < m := Nat.div_lt_self (by omega) (by omega)
      simp only [h, if_false, List.foldl_append, List.foldl_cons, List.foldl_nil,
        List.length_append, List.length_singleton]
      rw [ih (m / 10) hlt acc]
      simp only [digStep]
      rw [digitChar_toNat (m % 10) (Nat.mod_lt _ (by omega))]
      rw [pow_succ 10 (renderNat (m / 10)).length]
      have hm : 10 * (m / 10) + m % 10 = m := by omega
      ring_nf
      omega

theorem parseUNum_renderNat (m : Nat) (rest : List Char) (hrest : headNotDigit rest) :
    parseUNum (renderNat m ++ rest) = some (m, rest) := by
  obtain ⟨k, t, ht, hk, hknz⟩ := renderNat_cons m
  by_cases hm : m = 0
  · subst hm
    have h0 : renderNat 0 = ['0'] := by rw [renderNat_eq]; simp; decide
    simp [h0, parseUNum]
  · have hk0 : Nat.digitChar k ≠ '0' := digitChar_ne_zero k hk (hknz hm)
    have hdig : ('0' ≤ Nat.digitChar k ∧ Nat.digitChar k ≤ '9') := digitChar_isDigit k hk
    rw [ht]
    simp only [List.cons_append, parseUNum]
    rw [if_neg hk0, if_pos hdig]
    have hall : ∀ c ∈ t, isDigitCh c := by
      intro c hc
      exact renderNat_digits m c (by rw [ht]; simp [hc])
    rw [parseDigits_run t _ rest hall hrest]
    have hfold := foldl_digits_renderNat m 0
    rw [ht] at hfold
    simp only [List.foldl_cons, List.length_cons, zero_mul, zero_add] at hfold
    have hstep : digStep 0 (Nat.digitChar k) = (Nat.digitChar k).toNat - 48 := by
      simp [digStep]
    rw [hstep] at hfold
    rw [hfold]

theorem parseIntTok_renderInt (i : Int) (rest : List Char) (hrest : headNotDigit rest) :
    parseIntTok (renderInt i ++ rest) = some (.int i, rest) := by
  by_cases hi : i < 0
  · simp only [renderInt, if_pos hi, List.cons_append, parseIntTok, if_pos rfl]
    rw [parseUNum_renderNat _ rest hrest]
    have hcast : (((-i).toNat : Int)) = -i := Int.toNat_of_nonneg (by omega)
    simp [hcast]
  · simp only [renderInt, if_neg hi]
    obtain ⟨k, t, ht, hk, _⟩ := renderNat_cons i.toNat
    have hne : Nat.digitChar k ≠ '-' := (digitChar_dispatch k hk).2.2.2.2.2.2
    rw [ht]
    simp only [List.cons_append, parseIntTok, if_neg hne]
    rw [← List.cons_append, ← ht, parseUNum_renderNat _ rest hrest]
    have hcast : ((i.toNat : Int)) = i := Int.toNat_of_nonneg (by omega)
    simp [hcast]

/-! ## Hex and string-escape round-trip -/

theorem hexVal_digitChar : ∀ k < 16, hexVal (Nat.digitChar k) = some k := by decide

theorem hex4_toHex4 {n : Nat} (h : n < 65536) :
    hex4 (Nat.digitChar (n / 4096 % 16)) (Nat.digitChar (n / 256 % 16))
      (Nat.digitChar (n / 16 % 16)) (Nat.digitChar (n % 16)) = some n := by
  rw [hex4, hexVal_digitChar _ (Nat.mod_lt _ (by omega)),
    hexVal_digitChar _ (Nat.mod_lt _ (by omega)),
    hexVal_digitChar _ (Nat.mod_lt _ (by omega)),
    hexVal_digitChar _ (Nat.mod_lt _ (by omega))]
  show some (4096 * (n / 4096 % 16) + 256 * (n / 256 % 16) + 16 * (n / 16 % 16) + n % 16)
    = some n
  congr 1
  omega

theorem char_valid_toNat (c : Char) :
    c.toNat < 55296 ∨ (57343 < c.toNat ∧ c.toNat < 1114112) := c.valid

theorem parseUEsc_hex {n : Nat} (h : n < 65536) (rest : List Char) :
    parseUEsc (toHex4 n ++ rest) = some (n, rest) := by
  simp only [toHex4, List.cons_append, List.nil_append, parseUEsc, hex4_toHex4 h]
  rfl

theorem parseStringBody_escape : ∀ (s : List Char) (fuel : Nat) (rest : List Char),
    4 * s.length < fuel →
    parseStringBody fuel (escapeStr s ++ ('"' :: rest)) = some (s, rest) := by
  intro s
  induction s with
  | nil =>
    intro fuel rest hf
    obtain ⟨f, rfl⟩ : ∃ f, fuel = f + 1 := ⟨fuel - 1, by omega⟩
    simp [escapeStr, parseStringBody]
  | cons c cs ih =>
    intro fuel rest hf
    simp only [List.length_cons] at hf
    obtain ⟨g, rfl⟩ : ∃ g, fuel = g + 4 := ⟨fuel - 4, by omega⟩
    have hg : 4 * cs.length < g := by omega
    have ihf : ∀ f', 4 * cs.length < f' →
        parseStringBody f' (escapeStr cs ++ ('"' :: rest)) = some (cs, rest) :=
      fun f' hf' => ih f' rest hf'
    show parseStringBody (g + 4) ((escapeChar c ++ escapeStr cs) ++ ('"' :: rest)) = _
    rw [List.append_assoc]
    by_cases h1 : c = '"'
    · subst h1
      simp [escapeChar, parseStringBody, parseEscape, ihf (g + 2) (by omega), consChar]
    by_cases h2 : c = '\\'
    · subst h2
      simp [escapeChar, parseStringBody, parseEscape, ihf (g + 2) (by omega), consChar]
    by_cases h3 : c.toNat = 8
    · have hc : Char.ofNat 8 = c := by rw [← h3, Char.ofNat_toNat]
      simp [escapeChar, h1, h2, h3, parseStringBody, parseEscape,
        ihf (g + 2) (by omega), consChar, hc]
      exact hc
    by_cases h4 : c.toNat = 9
    · have hc : Char.ofNat 9 = c := by rw [← h4, Char.ofNat_toNat]
      have hc' : '\t' = c := hc
      simp [escapeChar, h1, h2, h3, h4, parseStringBody, parseEscape,
        ihf (g + 2) (by omega), consChar, hc']
      exact hc'
    by_cases h5 : c.toNat = 10
    · have hc : Char.ofNat 10 = c := by rw [← h5, Char.ofNat_toNat]
      have hc' : '\n' = c := hc
      simp [escapeChar, h1, h2, h3, h4, h5, parseStringBody, parseEscape,
        ihf (g + 2) (by omega), consChar, hc']
      exact hc'
    by_cases h6 : c.toNat = 12
    · have hc : Char.ofNat 12 = c := by rw [← h6, Char.ofNat_toNat]
      simp [escapeChar, h1, h2, h3, h4, h5, h6, parseStringBody, parseEscape,
        ihf (g + 2) (by omega), consChar, hc]
      exact hc
    by_cases h7 : c.toNat = 13
    · have hc : Char.ofNat 13 = c := by rw [← h7, Char.ofNat_toNat]
      have hc' : '\r' = c := hc
      simp [escapeChar, h1, h2, h3, h4, h5, h6, h7, parseStringBody, parseEscape,
        ihf (g + 2) (by omega), consChar, hc']
      exact hc'
    by_cases h8 : c.toNat < 32 ∨ 126 < c.toNat
    · by_cases h9 : c.toNat ≤ 65535
      · -- single `\uXXXX`
        have hval := char_valid_toNat c
        have hns : ¬ (55296 ≤ c.toNat ∧ c.toNat < 56320) := by omega
        have hns' : ¬ (56320 ≤ c.toNat ∧ c.toNat < 57344) := by omega
        have hesc : escapeChar c = '\\' :: 'u' :: toHex4 c.toNat := by
          simp [escapeChar, h1, h2, h3, h4, h5, h6, h7, h8, h9]
        rw [hesc]
        simp only [List.cons_append, List.append_assoc]
        rw [parseStringBody]
        rw [if_neg (by decide), if_pos rfl]
        rw [parseEscape]
        rw [if_pos rfl, parseUEsc_hex (by omega), Option.some_bind, parseUCont,
          if_neg hns, if_neg hns', Char.ofNat_toNat, ihf (g + 1) (by omega)]
        rfl
      · -- surrogate pair
        have hval := char_valid_toNat c
        have hhi : 55296 ≤ 55296 + (c.toNat - 65536) / 1024 ∧
            55296 + (c.toNat - 65536) / 1024 < 56320 := by omega
        have hlo : 56320 ≤ 56320 + (c.toNat - 65536) % 1024 ∧
            56320 + (c.toNat - 65536) % 1024 < 57344 := by omega
        have harith : 65536 + (55296 + (c.toNat - 65536) / 1024 - 55296) * 1024 +
            (56320 + (c.toNat - 65536) % 1024 - 56320) = c.toNat := by omega
        have hesc : escapeChar c = '\\' :: 'u' :: (toHex4 (55296 + (c.toNat - 65536) / 1024) ++
            '\\' :: 'u' :: toHex4 (56320 + (c.toNat - 65536) % 1024)) := by
          simp [escapeChar, h1, h2, h3, h4, h5, h6, h7, h8, h9]
        rw [hesc]
        simp only [List.cons_append, List.append_assoc]
        rw [parseStringBody]
        rw [if_neg (by decide), if_pos rfl]
        rw [parseEscape]
        rw [if_pos rfl, parseUEsc_hex (by omega), Option.some_bind, parseUCont,
          if_pos hhi, parseLowSurr, if_pos ⟨rfl, rfl⟩,
          parseUEsc_hex (show 56320 + (c.toNat - 65536) % 1024 < 65536 by omega),
          Option.some_bind, lowSurrCheck, if_pos hlo, Option.some_bind,
          parsePairCont, harith, Char.ofNat_toNat, ihf g hg]
        rfl
    · -- plain printable ASCII character
      have h32 : ¬ c.toNat < 32 := by omega
      have hesc : escapeChar c = [c] := by
        simp [escapeChar, h1, h2, h3, h4, h5, h6, h7, h8]
      rw [hesc]
      simp only [List.cons_append, List.nil_append]
      rw [parseStringBody]
      rw [if_neg h1, if_neg h2, if_neg h32, ihf (g + 3) (by omega)]
      rfl

theorem one_le_escapeChar_len (c : Char) : 1 ≤ (escapeChar c).length := by
  simp only [escapeChar]
  split_ifs <;> simp [toHex4]

theorem escapeStr_length (s : List Char) : s.length ≤ (escapeStr s).length := by
  induction s with
  | nil => simp [escapeStr]
  | cons c cs ih =>
    have := one_le_escapeChar_len c
    simp only [escapeStr, List.length_append, List.length_cons]
    omega

theorem parseString_escape (s rest : List Char) :
    parseString (escapeStr s ++ ('"' :: rest)) = some (s, rest) := by
  unfold parseString
  apply parseStringBody_escape
  have h1 := escapeStr_length s
  simp only [List.length_append, List.length_cons]
  omega


theorem one_le_sizeV (j : Json) : 1 ≤ sizeV j := by
  cases j <;> simp [sizeV] <;> omega

theorem one_le_sizeL (xs : List Json) : 1 ≤ sizeL xs := by
  cases xs with
  | nil => simp [sizeL]
  | cons x xs => simp [sizeL]; omega

theorem one_le_sizeM (fs : List (String × Json)) : 1 ≤ sizeM fs := by
  cases fs with
  | nil => simp [sizeM]
  | cons f fs => obtain ⟨k, v⟩ := f; simp [sizeM]; omega

/-! ## Serialized output never starts with whitespace, a closer or a comma -/


theorem renderInt_goodHead (n : Int) : goodHead (renderInt n) := by
  unfold renderInt
  by_cases h : n < 0
  · simp only [h, if_true]
    exact ⟨by decide, by decide, by decide, by decide⟩
  · simp only [h, if_false]
    obtain ⟨k, t, ht, hk, _⟩ := renderNat_cons n.toNat
    rw [ht]
    exact ⟨digitChar_not_ws k hk, (digitChar_ne_close k hk).1,
      (digitChar_ne_close k hk).2.1, (digitChar_ne_close k hk).2.2⟩

theorem dumps_goodHead (j : Json) (lvl : Nat) : goodHead (dumps j lvl) := by
  cases j with
  | null => exact ⟨by decide, by decide, by decide, by decide⟩
  | bool b => cases b <;> exact ⟨by decide, by decide, by decide, by decide⟩
  | int n => exact renderInt_goodHead n
  | str s => exact ⟨by decide, by decide, by decide, by decide⟩
  | arr xs => cases xs <;> exact ⟨by decide, by decide, by decide, by decide⟩
  | obj fs => cases fs <;> exact ⟨by decide, by decide, by decide, by decide⟩

theorem goodHead_cons {c : Char} {t : List Char} (h : goodHead (c :: t)) :
    ¬ jsonWs c ∧ c ≠ ']' ∧ c ≠ '}' ∧ c ≠ ',' := h

theorem headNotDigit_pad {pad : List Char} {d : Char} (rest : List Char)
    (hpad : ∀ c ∈ pad, jsonWs c) (hd : ¬ isDigitCh d) :
    headNotDigit (pad ++ d :: rest) := by
  cases pad with
  | nil => exact hd
  | cons c t => exact ws_not_digit (hpad c (by simp))

/-! ## Duplicate-free field lists survive dict building -/

theorem pySetKey_append {acc : List (String × Json)} {k : String} (v : Json)
    (h : ∀ p ∈ acc, p.1 ≠ k) : pySetKey acc k v = acc ++ [(k, v)] := by
  induction acc with
  | nil => rfl
  | cons q t ih =>
    obtain ⟨qk, qv⟩ := q
    have hq : qk ≠ k := h (qk, qv) (by simp)
    simp only [pySetKey, if_neg hq, List.cons_append, List.cons.injEq, true_and]
    exact ih (fun p hp => h p (by simp [hp]))

theorem foldl_setKey (fs : List (String × Json)) :
    ∀ acc, noDupKeys fs = true → (∀ p ∈ fs, ∀ q ∈ acc, q.1 ≠ p.1) →
    fs.foldl (fun acc kv => pySetKey acc kv.1 kv.2) acc = acc ++ fs := by
  induction fs with
  | nil => intro acc _ _; simp
  | cons f t ih =>
    intro acc hnd hdisj
    obtain ⟨k, v⟩ := f
    simp only [noDupKeys, Bool.and_eq_true, Bool.not_eq_true'] at hnd
    obtain ⟨hany, hndt⟩ := hnd
    have hknot : ∀ p ∈ t, p.1 ≠ k := by
      intro p hp
      have := List.any_eq_false.mp hany p hp
      simpa using this
    simp only [List.foldl_cons]
    rw [pySetKey_append v (fun p hp => hdisj (k, v) (by simp) p hp)]
    rw [ih (acc ++ [(k, v)]) hndt ?_]
    · simp
    · intro p hp q hq
      rcases List.mem_append.mp hq with hq | hq
      · exact hdisj p (by simp [hp]) q hq
      · simp only [List.mem_singleton] at hq
        subst hq
        exact fun hh => hknot p hp (by simp at hh; exact hh.symm)

theorem collapseFields_noDup {fs : List (String × Json)} (h : noDupKeys fs = true) :
    collapseFields fs = fs := by
  unfold collapseFields
  rw [foldl_setKey fs [] h (by simp)]
  simp

theorem string_mk_data (s : String) : String.mk s.data = s := rfl

theorem expectLit_self (v : Json) : ∀ (lit rest : List Char),
    expectLit v lit (lit ++ rest) = some (v, rest) := by
  intro lit
  induction lit with
  | nil => intro rest; rfl
  | cons l ls ih =>
    intro rest
    show expectLit v (l :: ls) (l :: (ls ++ rest)) = _
    rw [expectLit, if_pos rfl]
    exact ih rest

theorem pad_ws (lvl : Nat) : ∀ c ∈ ('\n' :: jIndent lvl), jsonWs c := by
  intro c hc
  rcases List.mem_cons.mp hc with rfl | hc
  · decide
  · exact jIndent_ws lvl c hc

theorem dumps_decomp (j : Json) (lvl : Nat) :
    ∃ c t, dumps j lvl = c :: t ∧ ¬ jsonWs c ∧ c ≠ ']' ∧ c ≠ '}' ∧ c ≠ ',' := by
  have h := dumps_goodHead j lvl
  cases hd : dumps j lvl with
  | nil => rw [hd] at h; exact absurd h (by simp [goodHead])
  | cons c t =>
    rw [hd] at h
    exact ⟨c, t, rfl, h.1, h.2.1, h.2.2.1, h.2.2.2⟩

theorem dumpsElems_decomp (x : Json) (xs : List Json) (lvl : Nat) :
    ∃ c t, dumpsElems (x :: xs) lvl = c :: t ∧ ¬ jsonWs c ∧ c ≠ ']' := by
  obtain ⟨c, t, h, hw, hb, _, _⟩ := dumps_decomp x lvl
  cases xs with
  | nil => exact ⟨c, t, by simp [dumpsElems, h], hw, hb⟩
  | cons y ys =>
    refine ⟨c, t ++ ',' :: '\n' :: (jIndent lvl ++ dumpsElems (y :: ys) lvl), ?_, hw, hb⟩
    simp [dumpsElems, h]


theorem skipWs_cons_ws {c : Char} (s : List Char) (h : jsonWs c) :
    skipWs (c :: s) = skipWs s := by
  simp [skipWs, List.dropWhile_cons, h]

theorem comma_not_digit : ¬ isDigitCh ',' := by decide

set_option maxHeartbeats 1000000 in
theorem parse_dumps : ∀ fuel : Nat,
    (∀ (j : Json) (lvl : Nat) (rest : List Char), sizeV j ≤ fuel → jsonWF j = true →
      headNotDigit rest → parseValue fuel (dumps j lvl ++ rest) = some (j, rest)) ∧
    (∀ (xs : List Json) (lvl : Nat) (pad rest : List Char), sizeL xs ≤ fuel →
      xs ≠ [] → jsonWFList xs = true → (∀ c ∈ pad, jsonWs c) →
      parseElems fuel (dumpsElems xs lvl ++ (pad ++ ']' :: rest)) = some (xs, rest)) ∧
    (∀ (fs : List (String × Json)) (lvl : Nat) (pad rest : List Char), sizeM fs ≤ fuel →
      fs ≠ [] → jsonWFFields fs = true → (∀ c ∈ pad, jsonWs c) →
      parseMembers fuel (dumpsFields fs lvl ++ (pad ++ '}' :: rest)) = some (fs, rest)) := by
  intro fuel
  induction fuel using Nat.strong_induction_on with
  | _ fuel ih =>
    refine ⟨?_, ?_, ?_⟩
    · -- values
      intro j lvl rest hsz hwf hrest
      obtain ⟨f, rfl⟩ : ∃ f, fuel = f + 1 :=
        ⟨fuel - 1, by have := one_le_sizeV j; omega⟩
      cases j with
      | null =>
        show parseValue (f + 1) ('n' :: ('u' :: 'l' :: 'l' :: rest)) = _
        rw [parseValue, if_pos rfl]
        exact expectLit_self .null ['u', 'l', 'l'] rest
      | bool b =>
        cases b with
        | true =>
          show parseValue (f + 1) ('t' :: ('r' :: 'u' :: 'e' :: rest)) = _
          rw [parseValue, if_neg (by decide), if_pos rfl]
          exact expectLit_self (.bool true) ['r', 'u', 'e'] rest
        | false =>
          show parseValue (f + 1) ('f' :: ('a' :: 'l' :: 's' :: 'e' :: rest)) = _
          rw [parseValue, if_neg (by decide), if_neg (by decide), if_pos rfl]
          exact expectLit_self (.bool false) ['a', 'l', 's', 'e'] rest
      | int n =>
        show parseValue (f + 1) (renderInt n ++ rest) = _
        by_cases hneg : n < 0
        · have hri : renderInt n = '-' :: renderNat (-n).toNat := by
            simp [renderInt, hneg]
          rw [hri, List.cons_append, parseValue,
            if_neg (by decide), if_neg (by decide), if_neg (by decide),
            if_neg (by decide), if_neg (by decide), if_neg (by decide),
            ← List.cons_append, ← hri]
          exact parseIntTok_renderInt n rest hrest
        · have hri : renderInt n = renderNat n.toNat := by
            simp [renderInt, hneg]
          obtain ⟨k, t, ht, hk, _⟩ := renderNat_cons n.toNat
          obtain ⟨d1, d2, d3, d4, d5, d6, _⟩ := digitChar_dispatch k hk
          rw [hri, ht, List.cons_append, parseValue,
            if_neg d1, if_neg d2, if_neg d3, if_neg d4, if_neg d5, if_neg d6,
            ← List.cons_append, ← ht, ← hri]
          exact parseIntTok_renderInt n rest hrest
      | str s =>
        show parseValue (f + 1)
          (('"' :: (escapeStr s.data ++ ['"'])) ++ rest) = _
        simp only [List.cons_append, List.append_assoc, List.singleton_append,
          List.nil_append]
        rw [parseValue, if_neg (by decide), if_neg (by decide), if_neg (by decide),
          if_pos rfl]
        rw [parseString_escape s.data rest, Option.some_bind, strCont, string_mk_data]
      | arr xs =>
        cases xs with
        | nil =>
          obtain ⟨f₁, rfl⟩ : ∃ f₁, f = f₁ + 1 :=
            ⟨f - 1, by simp only [sizeV, sizeL] at hsz; omega⟩
          show parseValue (f₁ + 1 + 1) ('[' :: (']' :: rest)) = _
          rw [parseValue, if_neg (by decide), if_neg (by decide), if_neg (by decide),
            if_neg (by decide), if_pos rfl]
          rw [skipWs_cons_not rest (by decide)]
          rw [arrStep, if_pos rfl]
        | cons x xs' =>
          have h1 := one_le_sizeL (x :: xs')
          simp only [sizeV] at hsz
          obtain ⟨f₁, rfl⟩ : ∃ f₁, f = f₁ + 1 := ⟨f - 1, by omega⟩
          have hsz' : sizeL (x :: xs') ≤ f₁ := by omega
          have hwf' : jsonWFList (x :: xs') = true := by
            simpa [jsonWF] using hwf
          obtain ⟨c0, t0, hde, hc0ws, hc0b⟩ := dumpsElems_decomp x xs' (lvl + 1)
          show parseValue (f₁ + 1 + 1)
            (('[' :: '\n' :: (jIndent (lvl + 1) ++ dumpsElems (x :: xs') (lvl + 1) ++
              '\n' :: (jIndent lvl ++ [']']))) ++ rest) = _
          simp only [List.cons_append, List.append_assoc, List.singleton_append, List.nil_append]
          rw [parseValue, if_neg (by decide), if_neg (by decide), if_neg (by decide),
            if_neg (by decide), if_pos rfl]
          rw [hde]
          simp only [List.cons_append, List.append_assoc, List.nil_append]
          rw [skipWs_cons_ws _ (by decide), skipWs_allWs_append _ (jIndent_ws (lvl + 1)),
            skipWs_cons_not _ hc0ws]
          rw [arrStep, if_neg hc0b]
          have happ := (ih f₁ (by omega)).2.1 (x :: xs') (lvl + 1) ('\n' :: jIndent lvl)
            rest hsz' (by simp) hwf' (pad_ws lvl)
          rw [hde] at happ
          simp only [List.cons_append, List.append_assoc, List.nil_append] at happ
          rw [happ, Option.some_bind, arrCont]
      | obj fs =>
        cases fs with
        | nil =>
          obtain ⟨f₁, rfl⟩ : ∃ f₁, f = f₁ + 1 :=
            ⟨f - 1, by simp only [sizeV, sizeM] at hsz; omega⟩
          show parseValue (f₁ + 1 + 1) ('{' :: ('}' :: rest)) = _
          rw [parseValue, if_neg (by decide), if_neg (by decide), if_neg (by decide),
            if_neg (by decide), if_neg (by decide), if_pos rfl]
          rw [skipWs_cons_not rest (by decide)]
          rw [objStep, if_pos rfl]
        | cons g fs' =>
          have h1 := one_le_sizeM (g :: fs')
          simp only [sizeV] at hsz
          obtain ⟨f₁, rfl⟩ : ∃ f₁, f = f₁ + 1 := ⟨f - 1, by omega⟩
          have hsz' : sizeM (g :: fs') ≤ f₁ := by omega
          have hnd : noDupKeys (g :: fs') = true := by
            simp only [jsonWF, Bool.and_eq_true] at hwf
            exact hwf.1
          have hwf' : jsonWFFields (g :: fs') = true := by
            simp only [jsonWF, Bool.and_eq_true] at hwf
            exact hwf.2
          obtain ⟨k, v⟩ := g
          show parseValue (f₁ + 1 + 1)
            (('{' :: '\n' :: (jIndent (lvl + 1) ++ dumpsFields ((k, v) :: fs') (lvl + 1) ++
              '\n' :: (jIndent lvl ++ ['}']))) ++ rest) = _
          simp only [List.cons_append, List.append_assoc, List.singleton_append, List.nil_append]
          rw [parseValue, if_neg (by decide), if_neg (by decide), if_neg (by decide),
            if_neg (by decide), if_neg (by decide), if_pos rfl]
          have hdf : ∃ t, dumpsFields ((k, v) :: fs') (lvl + 1) = '"' :: t := by
            cases fs' with
            | nil => exact ⟨_, rfl⟩
            | cons g' gs => exact ⟨_, rfl⟩
          obtain ⟨tf, hdf⟩ := hdf
          rw [hdf]
          simp only [List.cons_append, List.append_assoc, List.nil_append]
          rw [skipWs_cons_ws _ (by decide), skipWs_allWs_append _ (jIndent_ws (lvl + 1)),
            skipWs_cons_not _ (by decide)]
          rw [objStep, if_neg (by decide)]
          have happ := (ih f₁ (by omega)).2.2 ((k, v) :: fs') (lvl + 1) ('\n' :: jIndent lvl)
            rest hsz' (by simp) hwf' (pad_ws lvl)
          rw [hdf] at happ
          simp only [List.cons_append, List.append_assoc, List.nil_append] at happ
          rw [happ, Option.some_bind, objCont, collapseFields_noDup hnd]
    · -- elements
      intro xs lvl pad rest hsz hne hwf hpad
      cases xs with
      | nil => exact absurd rfl hne
      | cons x xs' =>
        simp only [sizeL] at hsz
        have hvx := one_le_sizeV x
        have hlx := one_le_sizeL xs'
        obtain ⟨F, rfl⟩ : ∃ F, fuel = F + 1 := ⟨fuel - 1, by omega⟩
        simp only [jsonWFList, Bool.and_eq_true] at hwf
        cases xs' with
        | nil =>
          show parseElems (F + 1) (dumps x lvl ++ (pad ++ ']' :: rest)) = some ([x], rest)
          rw [parseElems]
          have hv := (ih F (by omega)).1 x lvl (pad ++ ']' :: rest) (by omega) hwf.1
            (headNotDigit_pad rest hpad (by decide))
          rw [hv, Option.some_bind]
          obtain ⟨F₁, rfl⟩ : ∃ F₁, F = F₁ + 1 := ⟨F - 1, by omega⟩
          rw [elemsCont]
          rw [skipWs_allWs_append _ hpad, skipWs_cons_not _ (by decide)]
          obtain ⟨F₂, rfl⟩ : ∃ F₂, F₁ = F₂ + 1 := ⟨F₁ - 1, by omega⟩
          rw [elemsStep, if_neg (by decide), if_pos rfl]
        | cons y ys =>
          show parseElems (F + 1)
            ((dumps x lvl ++ ',' :: '\n' :: (jIndent lvl ++ dumpsElems (y :: ys) lvl)) ++
              (pad ++ ']' :: rest)) = some (x :: y :: ys, rest)
          simp only [List.cons_append, List.append_assoc, List.nil_append]
          rw [parseElems]
          have hv := (ih F (by omega)).1 x lvl
            (',' :: '\n' :: (jIndent lvl ++ (dumpsElems (y :: ys) lvl ++ (pad ++ ']' :: rest))))
            (by omega) hwf.1 comma_not_digit
          rw [hv, Option.some_bind]
          obtain ⟨F₁, rfl⟩ : ∃ F₁, F = F₁ + 1 := ⟨F - 1, by omega⟩
          rw [elemsCont]
          rw [skipWs_cons_not _ (by decide)]
          obtain ⟨F₂, rfl⟩ : ∃ F₂, F₁ = F₂ + 1 := ⟨F₁ - 1, by omega⟩
          rw [elemsStep, if_pos rfl]
          rw [skipWs_cons_ws _ (by decide), skipWs_allWs_append _ (jIndent_ws lvl)]
          obtain ⟨c0, t0, hde, hc0ws, _⟩ := dumpsElems_decomp y ys lvl
          rw [hde]
          simp only [List.cons_append, List.append_assoc, List.nil_append]
          rw [skipWs_cons_not _ hc0ws]
          have htail := (ih F₂ (by omega)).2.1 (y :: ys) lvl pad rest (by omega) (by simp)
            hwf.2 hpad
          rw [hde] at htail
          simp only [List.cons_append, List.append_assoc, List.nil_append] at htail
          rw [htail, Option.some_bind, consElem]
    · -- members
      intro fs lvl pad rest hsz hne hwf hpad
      cases fs with
      | nil => exact absurd rfl hne
      | cons g fs' =>
        obtain ⟨k, v⟩ := g
        simp only [sizeM] at hsz
        have hvv := one_le_sizeV v
        have hmf := one_le_sizeM fs'
        obtain ⟨F, rfl⟩ : ∃ F, fuel = F + 1 := ⟨fuel - 1, by omega⟩
        simp only [jsonWFFields, Bool.and_eq_true] at hwf
        obtain ⟨cv, tv, hdv, hvw, _⟩ := dumps_decomp v lvl
        cases fs' with
        | nil =>
          show parseMembers (F + 1)
            (('"' :: (escapeStr k.data ++ '"' :: ':' :: ' ' :: dumps v lvl)) ++
              (pad ++ '}' :: rest)) = some ([(k, v)], rest)
          simp only [List.cons_append, List.append_assoc, List.nil_append]
          rw [parseMembers, if_pos rfl]
          rw [parseString_escape, Option.some_bind]
          obtain ⟨F₁, rfl⟩ : ∃ F₁, F = F₁ + 1 := ⟨F - 1, by omega⟩
          rw [keyCont, string_mk_data]
          rw [skipWs_cons_not _ (by decide)]
          obtain ⟨F₂, rfl⟩ : ∃ F₂, F₁ = F₂ + 1 := ⟨F₁ - 1, by omega⟩
          rw [keyStep, if_pos rfl]
          rw [skipWs_cons_ws _ (by decide)]
          rw [hdv]
          simp only [List.cons_append, List.append_assoc, List.nil_append]
          rw [skipWs_cons_not _ hvw]
          have hv := (ih F₂ (by omega)).1 v lvl (pad ++ '}' :: rest) (by omega) hwf.1
            (headNotDigit_pad rest hpad (by decide))
          rw [hdv] at hv
          simp only [List.cons_append, List.append_assoc, List.nil_append] at hv
          rw [hv, Option.some_bind]
          obtain ⟨F₃, rfl⟩ : ∃ F₃, F₂ = F₃ + 1 := ⟨F₂ - 1, by omega⟩
          rw [valCont]
          rw [skipWs_allWs_append _ hpad, skipWs_cons_not _ (by decide)]
          obtain ⟨F₄, rfl⟩ : ∃ F₄, F₃ = F₄ + 1 := ⟨F₃ - 1, by omega⟩
          rw [valStep, if_neg (by decide), if_pos rfl]
        | cons g' gs =>
          show parseMembers (F + 1)
            (('"' :: ((escapeStr k.data ++ '"' :: ':' :: ' ' :: dumps v lvl) ++
              ',' :: '\n' :: (jIndent lvl ++ dumpsFields (g' :: gs) lvl))) ++
              (pad ++ '}' :: rest)) = some ((k, v) :: g' :: gs, rest)
          simp only [List.cons_append, List.append_assoc, List.nil_append]
          rw [parseMembers, if_pos rfl]
          rw [parseString_escape, Option.some_bind]
          obtain ⟨F₁, rfl⟩ : ∃ F₁, F = F₁ + 1 := ⟨F - 1, by omega⟩
          rw [keyCont, string_mk_data]
          rw [skipWs_cons_not _ (by decide)]
          obtain ⟨F₂, rfl⟩ : ∃ F₂, F₁ = F₂ + 1 := ⟨F₁ - 1, by omega⟩
          rw [keyStep, if_pos rfl]
          rw [skipWs_cons_ws _ (by decide)]
          rw [hdv]
          simp only [List.cons_append, List.append_assoc, List.nil_append]
          rw [skipWs_cons_not _ hvw]
          have hv := (ih F₂ (by omega)).1 v lvl
            (',' :: '\n' :: (jIndent lvl ++ (dumpsFields (g' :: gs) lvl ++ (pad ++ '}' :: rest))))
            (by omega) hwf.1 comma_not_digit
          rw [hdv] at hv
          simp only [List.cons_append, List.append_assoc, List.nil_append] at hv
          rw [hv, Option.some_bind]
          obtain ⟨F₃, rfl⟩ : ∃ F₃, F₂ = F₃ + 1 := ⟨F₂ - 1, by omega⟩
          rw [valCont]
          rw [skipWs_cons_not _ (by decide)]
          obtain ⟨F₄, rfl⟩ : ∃ F₄, F₃ = F₄ + 1 := ⟨F₃ - 1, by omega⟩
          rw [valStep, if_pos rfl]
          rw [skipWs_cons_ws _ (by decide), skipWs_allWs_append _ (jIndent_ws lvl)]
          have hdf : ∃ t, dumpsFields (g' :: gs) lvl = '"' :: t := by
            obtain ⟨k', v'⟩ := g'
            cases gs with
            | nil => exact ⟨_, rfl⟩
            | cons g'' gs' => exact ⟨_, rfl⟩
          obtain ⟨tf, hdf⟩ := hdf
          rw [hdf]
          simp only [List.cons_append, List.append_assoc, List.nil_append]
          rw [skipWs_cons_not _ (by decide)]
          have htail := (ih F₄ (by omega)).2.2 (g' :: gs) lvl pad rest (by omega)
            (by simp) hwf.2 hpad
          rw [hdf] at htail
          simp only [List.cons_append, List.append_assoc, List.nil_append] at htail
          rw [htail, Option.some_bind, consMember]

/-! ## The serializer's output fits in the parser's fuel -/

mutual

theorem sizeV_le_len : ∀ (j : Json) (lvl : Nat), sizeV j ≤ 3 * (dumps j lvl).length
  | .null, _ => by simp [sizeV, dumps]
  | .bool true, _ => by simp [sizeV, dumps]
  | .bool false, _ => by simp [sizeV, dumps]
  | .int n, _ => by
    have h := renderInt_goodHead n
    rcases hr : renderInt n with _ | ⟨c, t⟩
    · rw [hr] at h
      exact absurd h (by simp [goodHead])
    · simp only [sizeV, dumps, hr, List.length_cons]
      omega
  | .str s, _ => by
    simp only [sizeV, dumps, List.length_cons, List.length_append]
    omega
  | .arr [], _ => by simp [sizeV, sizeL, dumps]
  | .arr (x :: xs), lvl => by
    have h := sizeL_le_len (x :: xs) (lvl + 1)
    simp only [sizeV, dumps, List.length_cons, List.length_append]
    omega
  | .obj [], _ => by simp [sizeV, sizeM, dumps]
  | .obj (g :: fs), lvl => by
    have h := sizeM_le_len (g :: fs) (lvl + 1)
    simp only [sizeV, dumps, List.length_cons, List.length_append]
    omega
termination_by structural j _ => j

theorem sizeL_le_len : ∀ (xs : List Json) (lvl : Nat),
    sizeL xs ≤ 3 * (dumpsElems xs lvl).length + 4
  | [], _ => by simp [sizeL, dumpsElems]
  | [x], lvl => by
    have h := sizeV_le_len x lvl
    simp only [sizeL, sizeV, dumpsElems]
    omega
  | x :: y :: ys, lvl => by
    have h1 := sizeV_le_len x lvl
    have h2 := sizeL_le_len (y :: ys) lvl
    simp only [sizeL] at h2
    simp only [sizeL, dumpsElems, List.length_cons, List.length_append]
    omega
termination_by structural xs _ => xs

theorem sizeM_le_len : ∀ (fs : List (String × Json)) (lvl : Nat),
    sizeM fs ≤ 3 * (dumpsFields fs lvl).length + 4
  | [], _ => by simp [sizeM, dumpsFields]
  | [(k, v)], lvl => by
    have h := sizeV_le_len v lvl
    simp only [sizeM, sizeV, dumpsFields, List.length_cons, List.length_append]
    omega
  | (k, v) :: g :: gs, lvl => by
    have h1 := sizeV_le_len v lvl
    have h2 := sizeM_le_len (g :: gs) lvl
    obtain ⟨gk, gv⟩ := g
    simp only [sizeM] at h2
    simp only [sizeM, dumpsFields, List.length_cons, List.length_append]
    omega
termination_by structural fs _ => fs

end

theorem newline_not_digit : ¬ isDigitCh '\n' := by decide

/-- The full round trip of the file format: writing any well-formed
value with `json.dump(·, indent=2)` plus a trailing newline and reading
the result back with `json.load` recovers the value exactly. -/
theorem loads_dumps (j : Json) (h : jsonWF j = true) :
    loads (dumps j 0 ++ ['\n']) = some j := by
  have hp := (parse_dumps (3 * (dumps j 0 ++ ['\n']).length + 1)).1 j 0 ['\n']
    (by have := sizeV_le_len j 0
        simp only [List.length_append, List.length_cons, List.length_nil]
        omega)
    h newline_not_digit
  unfold loads
  obtain ⟨c, t, hd, hw, _⟩ := dumps_decomp j 0
  rw [hd] at hp ⊢
  simp only [List.cons_append] at hp ⊢
  rw [skipWs_cons_not _ hw, hp]
  rfl


/-! ## Dictionary and list lemmas -/

theorem jLookup_pySetKey (fs : List (String × Json)) (k : String) (v : Json) :
    jLookup (pySetKey fs k v) k = some v := by
  induction fs with
  | nil => simp [pySetKey, jLookup]
  | cons p t ih =>
    obtain ⟨pk, pv⟩ := p
    by_cases h : pk = k
    · simp [pySetKey, h, jLookup]
    · simp [pySetKey, h, jLookup, ih]

theorem pySetKey_idem (fs : List (String × Json)) (k : String) (v w : Json) :
    pySetKey (pySetKey fs k v) k w = pySetKey fs k w := by
  induction fs with
  | nil => simp [pySetKey]
  | cons p t ih =>
    obtain ⟨pk, pv⟩ := p
    by_cases h : pk = k <;> simp [pySetKey, h, ih]

theorem pySetKey_self (fs : List (String × Json)) (k : String) (v : Json)
    (h : jLookup fs k = some v) : pySetKey fs k v = fs := by
  induction fs with
  | nil => simp [jLookup] at h
  | cons p t ih =>
    obtain ⟨pk, pv⟩ := p
    by_cases hk : pk = k
    · simp only [jLookup, if_pos hk, Option.some.injEq] at h
      simp [pySetKey, hk, h]
    · simp only [jLookup, if_neg hk] at h
      simp [pySetKey, hk, ih h]

theorem list_set_self {α : Type} (l : List α) (n : Nat) (x : α)
    (h : l[n]? = some x) : l.set n x = l := by
  induction l generalizing n with
  | nil => simp at h
  | cons a t ih =>
    cases n with
    | zero =>
      simp only [List.getElem?_cons_zero, Option.some.injEq] at h
      simp [h]
    | succ m =>
      simp only [List.getElem?_cons_succ] at h
      simp [ih m h]

theorem pyInsertAt_length {α : Type} (x : α) :
    ∀ (n : Nat) (l : List α), (pyInsertAt n x l).length = l.length + 1 := by
  intro n
  induction n with
  | zero => intro l; rfl
  | succ m ih =>
    intro l
    cases l with
    | nil => rfl
    | cons a t => simp [pyInsertAt, ih t]

theorem pyInsert_length {α : Type} (l : List α) (i : Int) (x : α) :
    (pyInsert l i x).length = l.length + 1 := pyInsertAt_length x _ l

/-! ## Python index lemmas -/

theorem pyGetIdx_none_iff {α : Type} (l : List α) (i : Int) :
    pyGetIdx l i = none ↔ (i < -(l.length : Int) ∨ (l.length : Int) ≤ i) := by
  simp only [pyGetIdx, pyNorm]
  by_cases h : i < 0
  · rw [if_pos h]
    by_cases h2 : (0 : Int) ≤ i + l.length
    · rw [if_pos h2, List.getElem?_eq_none_iff]
      omega
    · rw [if_neg h2]
      simp only [true_iff]
      omega
  · rw [if_neg h, if_pos (by omega : (0 : Int) ≤ i), List.getElem?_eq_none_iff]
    omega

theorem pyGetIdx_nonneg {α : Type} (l : List α) (i : Int) (h : 0 ≤ i) :
    pyGetIdx l i = l[i.toNat]? := by
  simp only [pyGetIdx, pyNorm, if_neg (by omega : ¬ i < 0), if_pos h]

theorem pySetIdx_none_iff {α : Type} (l : List α) (i : Int) (v : α) :
    pySetIdx l i v = none ↔ (i < -(l.length : Int) ∨ (l.length : Int) ≤ i) := by
  simp only [pySetIdx, pyNorm]
  by_cases h : i < 0
  · rw [if_pos h]
    by_cases h2 : (0 : Int) ≤ i + l.length ∧ (i + l.length).toNat < l.length
    · rw [if_pos h2]
      constructor
      · intro hc
        exact absurd hc (by simp)
      · intro hc
        exact absurd hc (by omega)
    · rw [if_neg h2]
      simp only [true_iff]
      omega
  · rw [if_neg h]
    by_cases h2 : (0 : Int) ≤ i ∧ i.toNat < l.length
    · rw [if_pos h2]
      constructor
      · intro hc
        exact absurd hc (by simp)
      · intro hc
        exact absurd hc (by omega)
    · rw [if_neg h2]
      simp only [true_iff]
      omega

theorem pySetIdx_inrange {α : Type} (l : List α) (i : Int) (v : α)
    (h0 : 0 ≤ i) (hlt : i < (l.length : Int)) :
    pySetIdx l i v = some (l.set i.toNat v) := by
  simp only [pySetIdx, pyNorm, if_neg (by omega : ¬ i < 0)]
  rw [if_pos ⟨h0, by omega⟩]

/-! ## Editor state frame lemmas -/

theorem show_step_frame (s : Editor) (st : Json) :
    (show_step s st).chapter = s.chapter ∧
    (show_step s st).current_idx = s.current_idx ∧
    (show_step s st).hasFile = s.hasFile := by
  unfold show_step
  split <;> exact ⟨rfl, rfl, rfl⟩

theorem stepsView_setSteps (s : Editor) (fs : List (String × Json))
    (steps : List Json) : stepsView (setSteps s fs steps) = steps := by
  simp [stepsView, setSteps, jLookup_pySetKey]

/-! ## C2: out-of-bounds delete is a silent no-op -/

/-- C2: with the chapter loaded and its `"steps"` list in view, a
current index outside the bounds of `steps` makes `_delete_step` return
with no mutation and no exception: the guards `self._current_idx < 0`
and `self._current_idx >= len(steps)` both return silently, so no
`IndexError` is raised and the state (in particular `steps`) is
unchanged. -/
theorem delete_step_out_of_bounds (s : Editor) (fs : List (String × Json))
    (steps : List Json)
    (hch : s.chapter = some (.obj fs))
    (hsteps : jLookup fs "steps" = some (.arr steps))
    (hoob : s.current_idx < 0 ∨ (steps.length : Int) ≤ s.current_idx) :
    delete_step s = .ok s := by
  by_cases hg : ¬ truthyOpt s.chapter = true ∨ s.current_idx < 0
  · rw [delete_step, if_pos hg]
  · rw [delete_step, if_neg hg, hch]
    simp only [hsteps]
    rw [if_pos (Or.inr (by omega : (steps.length : Int) ≤ s.current_idx))]


/-- C2, counterexample to the claimed `IndexError`: an editor whose
current index 99 is far beyond its single step; `_delete_step` returns
the state unchanged rather than failing with `IndexError`. -/
theorem delete_step_oob_not_error :
    delete_step c2Editor = .ok c2Editor ∧
    delete_step c2Editor ≠ .error .indexError := by
  exact ⟨rfl, fun h => nomatch h⟩

/-- Witness for the out-of-bounds delete theorem at a concrete state. -/
theorem delete_step_out_of_bounds_witness :
    c2Editor.chapter = some (.obj [("chapter", .int 1),
      ("steps", .arr [.obj [("type", .str "dialog"), ("lines", .arr [])]])]) ∧
    delete_step c2Editor = .ok c2Editor :=
  ⟨rfl, delete_step_out_of_bounds c2Editor _
    [.obj [("type", .str "dialog"), ("lines", .arr [])]] rfl rfl
    (Or.inr (by decide))⟩



/-! ## C8: `BoardGrid._place` bounds behaviour -/

theorem pyGetIdx_mem {α : Type} {l : List α} {i : Int} {r : α}
    (h : pyGetIdx l i = some r) : r ∈ l := by
  simp only [pyGetIdx, pyNorm] at h
  split_ifs at h
  all_goals
    first
      | exact List.getElem?_mem h
      | exact absurd h (by simp)

/-- C8 (amended): `self._board[row][col] = piece` accepts every Python
index pair, so the rejected domain is `row` or `col` outside `[-5, 5)`
(an `IndexError`), not outside `[0, 5)`; for `0 ≤ row, col < 5` exactly
the one addressed cell is replaced. -/
theorem place_bounds (b : List (List Json)) (row col : Int) (p : Json)
    (hb : b.length = 5) (hrows : ∀ r ∈ b, r.length = 5) :
    ((place b row col p = .error .indexError) ↔
      (row < -5 ∨ 5 ≤ row ∨ col < -5 ∨ 5 ≤ col)) ∧
    (0 ≤ row → row < 5 → 0 ≤ col → col < 5 →
      ∃ r, b[row.toNat]? = some r ∧
        place b row col p = .ok (b.set row.toNat (r.set col.toNat p))) := by
  constructor
  · constructor
    · intro herr
      unfold place at herr
      cases hg : pyGetIdx b row with
      | none =>
        have hr := (pyGetIdx_none_iff b row).mp hg
        omega
      | some r =>
        have hrlen : r.length = 5 := hrows r (pyGetIdx_mem hg)
        cases hs : pySetIdx r col p with
        | none =>
          have hc := (pySetIdx_none_iff r col p).mp hs
          omega
        | some r' =>
          simp only [hg, hs] at herr
          exact absurd herr (by simp)
    · intro hoob
      unfold place
      by_cases hrow : row < -5 ∨ 5 ≤ row
      · have hg : pyGetIdx b row = none :=
          (pyGetIdx_none_iff b row).mpr (by omega)
        rw [hg]
      · cases hg : pyGetIdx b row with
        | none => rfl
        | some r =>
          have hrlen : r.length = 5 := hrows r (pyGetIdx_mem hg)
          have hs : pySetIdx r col p = none :=
            (pySetIdx_none_iff r col p).mpr (by omega)
          simp only [hg, hs]
  · intro h0 h5 c0 c5
    have hlt : row.toNat < b.length := by omega
    have hsome : b[row.toNat]? = some (b.get ⟨row.toNat, hlt⟩) :=
      List.getElem?_eq_getElem hlt
    have hg : pyGetIdx b row = some (b.get ⟨row.toNat, hlt⟩) :=
      (pyGetIdx_nonneg b row h0).trans hsome
    refine ⟨b.get ⟨row.toNat, hlt⟩, hsome, ?_⟩
    have hrlen : (b.get ⟨row.toNat, hlt⟩).length = 5 :=
      hrows _ (List.get_mem b row.toNat hlt)
    have hset : pySetIdx (b.get ⟨row.toNat, hlt⟩) col p =
        some ((b.get ⟨row.toNat, hlt⟩).set col.toNat p) :=
      pySetIdx_inrange _ col p c0 (by omega)
    have hnorm : pyNorm row b.length = row := by
      unfold pyNorm
      rw [if_neg (by omega)]
    simp only [place, hg, hset, hnorm]


/-- C8 counterexample: placing at `row = -1` — outside the claimed
accepted domain `[0, 5)` — is not rejected: Python's negative indexing
aliases the last row, and the board is mutated. -/
theorem place_negative_row_accepted :
    place empty_board (-1) 0 (.str "W") = .ok c8Result ∧
    c8Result ≠ empty_board := by
  refine ⟨rfl, ?_⟩
  decide

/-- Witness for the amended `_place` bounds theorem on the empty board. -/
theorem place_bounds_witness :
    empty_board.length = 5 ∧ (∀ r ∈ empty_board, r.length = 5) ∧
    (((place empty_board 7 0 (.str "W") = .error .indexError) ↔
      ((7 : Int) < -5 ∨ 5 ≤ (7 : Int) ∨ (0 : Int) < -5 ∨ 5 ≤ (0 : Int))) ∧
    (0 ≤ (7 : Int) → (7 : Int) < 5 → 0 ≤ (0 : Int) → (0 : Int) < 5 →
      ∃ r, empty_board[(7 : Int).toNat]? = some r ∧
        place empty_board 7 0 (.str "W") =
          .ok (empty_board.set (7 : Int).toNat (r.set (0 : Int).toNat (.str "W"))))) :=
  ⟨rfl, by decide, place_bounds empty_board 7 0 (.str "W") rfl (by decide)⟩

/-! ## C9: blank dialog fields are normalised to null -/

/-- C9: typing a blank-after-strip value into a dialog line field stores
`None` (`entry.get_text().strip() or None`), and the step later
extracted from the buffer carries `null` for that key. -/
theorem dialog_blank_to_null (lines : List Json) (idx : Nat) (key : String)
    (text : String) (fs : List (String × Json))
    (hline : lines[idx]? = some (.obj fs))
    (hblank : pyStrip text = "") :
    on_field_changed lines idx key text =
      lines.set idx (.obj (pySetKey fs key .null)) ∧
    jLookup (pySetKey fs key .null) key = some .null ∧
    jGet (dialog_get_step_data (lines.set idx (.obj (pySetKey fs key .null))))
      "lines" = some (.arr (lines.set idx (.obj (pySetKey fs key .null)))) := by
  have hidx : idx < lines.length := by
    by_contra hc
    rw [List.getElem?_eq_none_iff.mpr (by omega)] at hline
    exact absurd hline (by simp)
  have hstrip : stripOrNone text = .null := by
    simp [stripOrNone, hblank]
  refine ⟨?_, jLookup_pySetKey fs key .null, rfl⟩
  simp only [on_field_changed, if_pos hidx, hline, hstrip]

/-- Witness: typing `"  "` into the `speaker` field of the only line. -/
theorem dialog_blank_to_null_witness :
    pyStrip "  " = "" ∧
    on_field_changed [Json.obj [("speaker", Json.str "Bob")]] 0 "speaker" "  " =
      [Json.obj [("speaker", Json.null)]] :=
  ⟨rfl, (dialog_blank_to_null [Json.obj [("speaker", Json.str "Bob")]] 0 "speaker"
    "  " [("speaker", Json.str "Bob")] rfl rfl).1⟩

/-! ## C10: the dev server's path check is a raw string-prefix test -/



/-- C10: the `startswith` check of `_serve_data_file` accepts the
request `/data/../datasets/secret.json`, whose resolved path
`<root>/datasets/secret.json` is outside the `data` directory: the
string-prefix test confuses `data` with the sibling directory
`datasets`, so file content escaping `data/` is served. -/
theorem serve_data_check_bypass :
    serve_data_check c10Root c10Url = true ∧
    underDataDir c10Root
      (resolveSegs c10Root (pathSegs (lstripSlash c10Url))) = false :=
  ⟨rfl, rfl⟩

/-! ## C1: save/load round trip -/

theorem save_editor_spec {s : Editor} {out : String}
    (h : save_editor s = some out) :
    ∃ ch, (flushEditor s).chapter = some ch ∧ out = save_chapter ch := by
  unfold save_editor at h
  cases hc : s.chapter with
  | none => simp [hc] at h
  | some ch =>
    simp only [hc] at h
    by_cases ht : jTruthy ch
    · by_cases hf : s.hasFile
      · simp only [ht, hf, not_true, if_false] at h
        cases hfc : (flushEditor s).chapter with
        | none => simp [hfc] at h
        | some ch' =>
          simp only [hfc, Option.some.injEq] at h
          exact ⟨ch', rfl, h.symm⟩
      · simp [ht, hf] at h
    · simp [ht] at h

/-- The file write/read round trip at the editor level: what
`_save_file` writes, `json.load` parses back to the same value. -/
theorem load_save_chapter (j : Json) (h : jsonWF j = true) :
    load_file (save_chapter j) = some j := loads_dumps j h

/-- C1 (corrected): for an editor reached from a loaded document by any
sequence of §4.3 operations, saving and re-loading recovers exactly the
chapter *after* the save's implicit flush of the active buffer (not
necessarily the pre-save document: the flush rewrites the active step). -/
theorem editor_roundtrip (d0 : Json) (ops : List Op) (s : Editor)
    (out : String) (ch : Json)
    (hs : s = applyOps ops (loadState d0))
    (hsave : save_editor s = some out)
    (hch : (flushEditor s).chapter = some ch)
    (hwf : jsonWF ch = true) :
    load_file out = some ch := by
  obtain ⟨ch', hch', hout⟩ := save_editor_spec hsave
  rw [hch] at hch'
  injection hch' with h'
  subst h'
  rw [hout]
  exact load_save_chapter ch hwf


/-- Witness: the empty-history editor on a small well-formed chapter. -/
theorem editor_roundtrip_witness :
    loadState c1Good = applyOps [] (loadState c1Good) ∧
    save_editor (loadState c1Good) = some (save_chapter c1Good) ∧
    (flushEditor (loadState c1Good)).chapter = some c1Good ∧
    jsonWF c1Good = true ∧
    load_file (save_chapter c1Good) = some c1Good :=
  ⟨rfl, rfl, rfl, rfl,
    editor_roundtrip c1Good [] (loadState c1Good) (save_chapter c1Good) c1Good
      rfl rfl rfl rfl⟩



set_option maxRecDepth 100000 in
/-- C1 counterexample: after inserting a dialog step and deleting it
again (both §4.3 operations), the in-memory document is `c1Doc` — whose
puzzle step still carries its `"note"` key — but saving and re-loading
yields the flushed document, which has dropped `"note"`: the round trip
is not the identity on documents produced by §4.3 operations. -/
theorem editor_roundtrip_cex :
    (applyOps [.addStep "dialog", .deleteStep] (loadState c1Doc)).chapter =
      some c1Doc ∧
    editorRoundTrip (applyOps [.addStep "dialog", .deleteStep]
      (loadState c1Doc)) = some c1Flushed ∧
    jsonPyEq c1Flushed c1Doc = false :=
  ⟨rfl, rfl, rfl⟩



theorem stepsView_chapter_eq {s t : Editor} (h : s.chapter = t.chapter) :
    stepsView s = stepsView t := by
  unfold stepsView
  rw [h]

theorem stepsView_show_step (s : Editor) (st : Json) :
    stepsView (show_step s st) = stepsView s :=
  stepsView_chapter_eq (show_step_frame s st).1

/-! ## C3: the auto-generated puzzle id -/

/-- C3: on a flushed editor whose chapter has number `C` and a `steps`
list with `K` existing puzzle steps, `_add_step("puzzle")` inserts
`new_puzzle_step` with id `"ch{C}_p{NN}"`, `NN = K + 1` zero-padded to
two digits, the default win condition `capture_chief` with
`max_moves = 1`, player `white` and an empty 5×5 board; the insertion
happens after the active step (or at the end with no active step). -/
theorem add_puzzle_step_id (s : Editor) (fs : List (String × Json))
    (steps : List Json) (C : Int)
    (hflush : flushEditor s = s)
    (hch : s.chapter = some (.obj fs))
    (htr : jTruthy (.obj fs) = true)
    (hsteps : jLookup fs "steps" = some (.arr steps))
    (hchap : jLookup fs "chapter" = some (.int C)) :
    stepsView (add_step "puzzle" s) =
      pyInsert steps
        (if 0 ≤ s.current_idx then s.current_idx + 1 else (steps.length : Int))
        (new_puzzle_step (.int C) (countPuzzles steps + 1)) ∧
    (add_step "puzzle" s).current_idx =
      (if 0 ≤ s.current_idx then s.current_idx + 1 else (steps.length : Int)) ∧
    jGet (new_puzzle_step (.int C) (countPuzzles steps + 1)) "id" =
      some (.str ("ch" ++ toString C ++ "_p" ++ pad2 (countPuzzles steps + 1))) ∧
    jGet (new_puzzle_step (.int C) (countPuzzles steps + 1)) "win_condition" =
      some (.obj [("type", .str "capture_chief"), ("max_moves", .int 1)]) ∧
    jGet (new_puzzle_step (.int C) (countPuzzles steps + 1)) "player" =
      some (.str "white") ∧
    jGet (new_puzzle_step (.int C) (countPuzzles steps + 1)) "board" =
      some emptyBoardJson := by
  have htro : truthyOpt s.chapter = true := by rw [hch]; exact htr
  have hmain : add_step "puzzle" s =
      show_step
        { setSteps s fs (pyInsert steps
            (if 0 ≤ s.current_idx then s.current_idx + 1 else (steps.length : Int))
            (new_puzzle_step (.int C) (countPuzzles steps + 1))) with
          current_idx :=
            (if 0 ≤ s.current_idx then s.current_idx + 1 else (steps.length : Int)),
          dirty := true }
        (new_puzzle_step (.int C) (countPuzzles steps + 1)) := by
    unfold add_step
    rw [if_neg (by simp [htro]), hflush]
    simp only [hch, hsteps, jLookupD, hchap, Option.getD_some]
    simp only [if_neg (show ¬ ("puzzle" = "dialog") by decide)]
  refine ⟨?_, ?_, rfl, rfl, rfl, rfl⟩
  · rw [hmain, stepsView_show_step]
    exact (stepsView_chapter_eq rfl).trans (stepsView_setSteps s fs _)
  · rw [hmain, (show_step_frame _ _).2.1]



/-- Witness: the CLAIMS scenario — chapter 1 with one puzzle step
`ch1_p01`; the generated id is `ch1_p02`. -/
theorem add_puzzle_step_id_witness :
    flushEditor (loadState c3Doc) = loadState c3Doc ∧
    (loadState c3Doc).chapter = some (.obj [("chapter", .int 1),
      ("title", .str "T"), ("steps", .arr [c3Step])]) ∧
    jGet (new_puzzle_step (.int 1) (countPuzzles [c3Step] + 1)) "id" =
      some (.str ("ch" ++ toString (1 : Int) ++ "_p" ++
        pad2 (countPuzzles [c3Step] + 1))) ∧
    ("ch" ++ toString (1 : Int) ++ "_p" ++
      pad2 (countPuzzles [c3Step] + 1) : String) = "ch1_p02" :=
  ⟨rfl, rfl,
    (add_puzzle_step_id (loadState c3Doc) _ [c3Step] 1 rfl rfl rfl rfl
      rfl).2.2.1,
    rfl⟩

/-! ## C5: in-bounds delete -/

/-- C5: deleting the active in-bounds step removes it, and the new
active index is `min(index, len(steps) - 1)` over the shortened list —
`-1` ("none") exactly when the list became empty, never a
negative-but-valid index. -/
theorem delete_step_inbounds (s : Editor) (fs : List (String × Json))
    (steps : List Json)
    (hch : s.chapter = some (.obj fs))
    (htr : jTruthy (.obj fs) = true)
    (hsteps : jLookup fs "steps" = some (.arr steps))
    (h0 : 0 ≤ s.current_idx)
    (hlt : s.current_idx < (steps.length : Int)) :
    ∃ s', delete_step s = .ok s' ∧
      stepsView s' = steps.eraseIdx s.current_idx.toNat ∧
      s'.current_idx =
        min s.current_idx
          (((steps.eraseIdx s.current_idx.toNat).length : Int) - 1) ∧
      (steps.eraseIdx s.current_idx.toNat = [] → s'.current_idx = -1) := by
  have htro : truthyOpt s.chapter = true := by rw [hch]; exact htr
  have hlen : (steps.eraseIdx s.current_idx.toNat).length = steps.length - 1 := by
    apply List.length_eraseIdx_of_lt
    omega
  unfold delete_step
  rw [if_neg (by rw [not_or]; exact ⟨by simp [htro], by omega⟩), hch]
  simp only [hsteps]
  rw [if_neg (by
    rw [not_or]
    constructor
    · simp only [List.isEmpty_iff]
      intro hh
      rw [hh] at hlt
      simp at hlt
      omega
    · omega)]
  by_cases hcur : (0 : Int) ≤ min s.current_idx
      (((steps.eraseIdx s.current_idx.toNat).length : Int) - 1)
  · rw [if_pos hcur]
    have hix : (min s.current_idx
        (((steps.eraseIdx s.current_idx.toNat).length : Int) - 1)).toNat <
        (steps.eraseIdx s.current_idx.toNat).length := by omega
    rw [List.getElem?_eq_getElem hix]
    refine ⟨_, rfl, ?_, ?_, ?_⟩
    · rw [stepsView_show_step]
      exact (stepsView_chapter_eq rfl).trans (stepsView_setSteps s fs _)
    · exact (show_step_frame _ _).2.1
    · intro he
      refine ((show_step_frame _ _).2.1).trans ?_
      show min s.current_idx
        (((steps.eraseIdx s.current_idx.toNat).length : Int) - 1) = -1
      rw [he]
      simp only [List.length_nil, Nat.cast_zero]
      omega
  · rw [if_neg hcur]
    refine ⟨_, rfl, ?_, rfl, ?_⟩
    · exact (stepsView_chapter_eq rfl).trans (stepsView_setSteps s fs _)
    · intro he
      have hlen0 := congrArg List.length he
      simp at hlen0
      show min s.current_idx
        (((steps.eraseIdx s.current_idx.toNat).length : Int) - 1) = -1
      omega



/-- Witness: deleting the only remaining step sets the active index to
`-1` (none), per the CLAIMS scenario. -/
theorem delete_step_inbounds_witness :
    c5Editor.chapter = some (.obj [("chapter", .int 1),
      ("steps", .arr [.obj [("type", .str "dialog"), ("lines", .arr [])]])]) ∧
    (0 : Int) ≤ c5Editor.current_idx ∧
    (∃ s', delete_step c5Editor = .ok s' ∧
      stepsView s' = [.obj [("type", .str "dialog"),
        ("lines", .arr [])]].eraseIdx c5Editor.current_idx.toNat ∧
      s'.current_idx = min c5Editor.current_idx
        ((([Json.obj [("type", .str "dialog"),
          ("lines", .arr [])]].eraseIdx c5Editor.current_idx.toNat).length : Int)
          - 1) ∧
      ([Json.obj [("type", .str "dialog"),
        ("lines", .arr [])]].eraseIdx c5Editor.current_idx.toNat = [] →
        s'.current_idx = -1)) :=
  ⟨rfl, by decide,
    delete_step_inbounds c5Editor _
      [.obj [("type", .str "dialog"), ("lines", .arr [])]] rfl rfl rfl
      (by decide) (by decide)⟩



/-! ## C4: the current-step invariant -/

theorem flushEditor_frame (s : Editor) :
    (flushEditor s).current_idx = s.current_idx ∧
    (flushEditor s).hasFile = s.hasFile ∧
    (stepsView (flushEditor s)).length = (stepsView s).length := by
  unfold flushEditor
  repeat' split
  all_goals refine ⟨rfl, rfl, ?_⟩
  all_goals try rfl
  all_goals simp [setSteps, stepsView, jLookup_pySetKey, List.length_set, *]

theorem inv_flush (s : Editor) (h : Inv s) : Inv (flushEditor s) := by
  obtain ⟨h1, _, h3⟩ := flushEditor_frame s
  unfold Inv at h ⊢
  rw [h1, h3]
  exact h

theorem inv_show_step (s : Editor) (st : Json) (h : Inv s) :
    Inv (show_step s st) := by
  unfold Inv at h ⊢
  rw [(show_step_frame s st).2.1, stepsView_show_step]
  exact h

theorem inv_insert_state (s : Editor) (fs₁ : List (String × Json))
    (steps : List Json) (newstep : Json) (h : Inv s)
    (hsv : stepsView s = steps) :
    Inv (show_step
      { setSteps s fs₁ (pyInsert steps
          (if 0 ≤ s.current_idx then s.current_idx + 1 else (steps.length : Int))
          newstep) with
        current_idx :=
          (if 0 ≤ s.current_idx then s.current_idx + 1 else (steps.length : Int)),
        dirty := true } newstep) := by
  apply inv_show_step
  unfold Inv at h ⊢
  rw [hsv] at h
  right
  have hview : stepsView
      { setSteps s fs₁ (pyInsert steps
          (if 0 ≤ s.current_idx then s.current_idx + 1 else (steps.length : Int))
          newstep) with
        current_idx :=
          (if 0 ≤ s.current_idx then s.current_idx + 1 else (steps.length : Int)),
        dirty := true } =
      pyInsert steps
        (if 0 ≤ s.current_idx then s.current_idx + 1 else (steps.length : Int))
        newstep :=
    (stepsView_chapter_eq rfl).trans (stepsView_setSteps s fs₁ _)
  refine ⟨?_, ?_⟩
  · show (0 : Int) ≤
      (if 0 ≤ s.current_idx then s.current_idx + 1 else (steps.length : Int))
    split_ifs <;> omega
  · show (if 0 ≤ s.current_idx then s.current_idx + 1 else (steps.length : Int)) <
      ((stepsView _).length : Int)
    rw [hview, pyInsert_length]
    rcases h with h | h
    · rw [if_neg (by omega)]
      omega
    · rw [if_pos h.1]
      omega

theorem inv_add (kind : String) (s : Editor) (h : Inv s) :
    Inv (add_step kind s) := by
  unfold add_step
  split
  · exact h
  · have h₁ : Inv (flushEditor s) := inv_flush s h
    rcases hch : (flushEditor s).chapter with _ | ch
    · simp only [hch]
      exact h₁
    · cases ch with
      | obj fs =>
        simp only [hch]
        rcases hlk : jLookup fs "steps" with _ | v
        · simp only [hlk]
          exact inv_insert_state (flushEditor s) _ [] _ h₁
            (by simp [stepsView, hch, hlk])
        · cases v with
          | arr xs =>
            simp only [hlk]
            exact inv_insert_state (flushEditor s) fs xs _ h₁
              (by simp [stepsView, hch, hlk])
          | null => simp only [hlk]; exact h₁
          | bool b => simp only [hlk]; exact h₁
          | int n => simp only [hlk]; exact h₁
          | str t => simp only [hlk]; exact h₁
          | obj g => simp only [hlk]; exact h₁
      | null => simp only [hch]; exact h₁
      | bool b => simp only [hch]; exact h₁
      | int n => simp only [hch]; exact h₁
      | str t => simp only [hch]; exact h₁
      | arr xs => simp only [hch]; exact h₁

theorem delete_step_ok_inv {s s' : Editor} (h : Inv s)
    (hd : delete_step s = .ok s') : Inv s' := by
  unfold delete_step at hd
  split at hd
  · injection hd with h'
    exact h' ▸ h
  · rename_i hguard
    rcases hch : s.chapter with _ | ch
    · rw [hch] at hd
      injection hd with h'
      exact h' ▸ h
    · rw [hch] at hd
      cases ch with
      | obj fs =>
        rcases hlk : jLookup fs "steps" with _ | v
        · simp only [hlk] at hd
          injection hd with h'
          exact h' ▸ h
        · cases v with
          | arr steps =>
            simp only [hlk] at hd
            split at hd
            · injection hd with h'
              exact h' ▸ h
            · rename_i hbound
              split at hd
              · rename_i hcur
                split at hd
                · rename_i st hst
                  injection hd with h'
                  subst h'
                  apply inv_show_step
                  unfold Inv
                  right
                  refine ⟨hcur, ?_⟩
                  have hview : stepsView
                      { setSteps s fs (steps.eraseIdx s.current_idx.toNat) with
                        current_idx :=
                          min s.current_idx
                            (((steps.eraseIdx s.current_idx.toNat).length : Int) - 1),
                        dirty := true } =
                      steps.eraseIdx s.current_idx.toNat :=
                    (stepsView_chapter_eq rfl).trans (stepsView_setSteps s fs _)
                  rw [hview]
                  have hne : (steps.eraseIdx s.current_idx.toNat).length ≠ 0 := by
                    intro hz
                    omega
                  show min s.current_idx
                      (((steps.eraseIdx s.current_idx.toNat).length : Int) - 1) <
                    ((steps.eraseIdx s.current_idx.toNat).length : Int)
                  omega
                · exact absurd hd (by simp)
              · rename_i hcur
                injection hd with h'
                subst h'
                unfold Inv
                left
                push_neg at hguard
                show min s.current_idx
                    (((steps.eraseIdx s.current_idx.toNat).length : Int) - 1) = -1
                omega
          | null => simp only [hlk] at hd; split at hd
                    · injection hd with h'; exact h' ▸ h
                    · exact absurd hd (by simp)
          | bool b => simp only [hlk] at hd; split at hd
                      · injection hd with h'; exact h' ▸ h
                      · exact absurd hd (by simp)
          | int n => simp only [hlk] at hd; split at hd
                     · injection hd with h'; exact h' ▸ h
                     · exact absurd hd (by simp)
          | str t => simp only [hlk] at hd; split at hd
                     · injection hd with h'; exact h' ▸ h
                     · exact absurd hd (by simp)
          | obj g => simp only [hlk] at hd; split at hd
                     · injection hd with h'; exact h' ▸ h
                     · exact absurd hd (by simp)
      | null => exact absurd hd (by simp)
      | bool b => exact absurd hd (by simp)
      | int n => exact absurd hd (by simp)
      | str t => exact absurd hd (by simp)
      | arr xs => exact absurd hd (by simp)

theorem inv_delete (s : Editor) (h : Inv s) : Inv (delete_step_state s) := by
  unfold delete_step_state
  cases hd : delete_step s with
  | error e => exact h
  | ok s' => exact delete_step_ok_inv h hd

theorem inv_move (d : Int) (s : Editor) (h : Inv s) : Inv (move_step d s) := by
  unfold move_step
  split
  · exact h
  · have h₁ : Inv (flushEditor s) := inv_flush s h
    rcases hch : (flushEditor s).chapter with _ | ch
    · simp only [hch]
      exact h₁
    · cases ch with
      | obj fs =>
        simp only [hch]
        rcases hlk : jLookup fs "steps" with _ | v
        · simp only [hlk]
          exact h₁
        · cases v with
          | arr steps =>
            simp only [hlk]
            split
            · rename_i hbound
              split
              · rename_i a b ha hb
                unfold Inv
                right
                refine ⟨hbound.1, ?_⟩
                have hview : stepsView
                    { setSteps (flushEditor s) fs
                        ((steps.set (flushEditor s).current_idx.toNat b).set
                          ((flushEditor s).current_idx + d).toNat a) with
                      current_idx := (flushEditor s).current_idx + d,
                      dirty := true } =
                    (steps.set (flushEditor s).current_idx.toNat b).set
                      ((flushEditor s).current_idx + d).toNat a :=
                  (stepsView_chapter_eq rfl).trans
                    (stepsView_setSteps (flushEditor s) fs _)
                show (flushEditor s).current_idx + d < ((stepsView _).length : Int)
                rw [hview]
                simp only [List.length_set]
                exact hbound.2
              · exact h₁
            · exact h₁
          | null => simp only [hlk]; exact h₁
          | bool b => simp only [hlk]; exact h₁
          | int n => simp only [hlk]; exact h₁
          | str t => simp only [hlk]; exact h₁
          | obj g => simp only [hlk]; exact h₁
      | null => simp only [hch]; exact h₁
      | bool b => simp only [hch]; exact h₁
      | int n => simp only [hch]; exact h₁
      | str t => simp only [hch]; exact h₁
      | arr xs => simp only [hch]; exact h₁

/-- C4: after a load the current-step pointer is `-1`, and every §4.3
mutation operation — insert, delete, move, flush — preserves the
invariant that the pointer is `-1` or a valid index into `steps`. -/
theorem editor_invariant (d : Json) (op : Op) (s : Editor) :
    Inv (loadState d) ∧ (Inv s → Inv (applyOp op s)) := by
  refine ⟨Or.inl rfl, fun h => ?_⟩
  cases op with
  | addStep k => exact inv_add k s h
  | deleteStep => exact inv_delete s h
  | moveStep dir => exact inv_move dir s h
  | flushOp => exact inv_flush s h

/-- Witness: the invariant holds after loading, and is preserved by a
concrete delete on a concrete in-invariant state. -/
theorem editor_invariant_witness :
    Inv (loadState c1Good) ∧ Inv c5Editor ∧
    Inv (applyOp .deleteStep c5Editor) :=
  ⟨(editor_invariant c1Good .deleteStep c5Editor).1,
    Or.inr ⟨by decide, by decide⟩,
    (editor_invariant c1Good .deleteStep c5Editor).2
      (Or.inr ⟨by decide, by decide⟩)⟩



/-! ## C6: deriving opponent moves from the free-text field -/

theorem pySpace_ne_comma {c : Char} (h : isPySpace c = true) : c ≠ ',' := by
  intro he
  subst he
  exact absurd h (by decide)

theorem lstripL_cons_ws {c : Char} (s : List Char) (h : isPySpace c = true) :
    lstripL (c :: s) = lstripL s := by
  simp [lstripL, List.dropWhile_cons, h]

theorem stripL_cons_ws {c : Char} (s : List Char) (h : isPySpace c = true) :
    stripL (c :: s) = stripL s := by
  unfold stripL
  rw [lstripL_cons_ws s h]

theorem rstripL_append_ws (y suf : List Char)
    (h : ∀ c ∈ suf, isPySpace c = true) : rstripL (y ++ suf) = rstripL y := by
  unfold rstripL
  rw [List.reverse_append,
    List.dropWhile_append_of_pos (fun c hc => h c (List.mem_reverse.mp hc))]

theorem dropWhile_head_false {p : Char → Bool} :
    ∀ {l : List Char} {d : Char} {ds : List Char},
      l.dropWhile p = d :: ds → p d = false := by
  intro l
  induction l with
  | nil => intro d ds h; simp at h
  | cons c t ih =>
    intro d ds h
    by_cases hc : p c = true
    · rw [List.dropWhile_cons, if_pos hc] at h
      exact ih h
    · rw [List.dropWhile_cons, if_neg hc] at h
      injection h with h1 _
      rw [← h1]
      exact Bool.not_eq_true (p c) ▸ hc

theorem stripL_append_ws (y suf : List Char)
    (h : ∀ c ∈ suf, isPySpace c = true) : stripL (y ++ suf) = stripL y := by
  cases hy : lstripL y with
  | nil =>
    have hally : ∀ c ∈ y, isPySpace c = true := by
      intro c hc
      have := List.dropWhile_eq_nil_iff.mp hy
      exact this c hc
    have h1 : lstripL (y ++ suf) = lstripL suf :=
      List.dropWhile_append_of_pos hally
    have h2 : lstripL suf = [] := List.dropWhile_eq_nil_iff.mpr h
    unfold stripL
    rw [h1, h2, hy]
  | cons d ds =>
    have h1 : lstripL (y ++ suf) = lstripL y ++ suf := by
      unfold lstripL
      rw [List.dropWhile_append]
      have : (y.dropWhile isPySpace).isEmpty = false := by
        rw [show y.dropWhile isPySpace = d :: ds from hy]
        rfl
      rw [this]
      simp
    unfold stripL
    rw [h1, rstripL_append_ws _ suf h]

theorem splitSep_ne_nil (sep : Char) (l : List Char) : splitSep sep l ≠ [] := by
  cases l with
  | nil => simp [splitSep]
  | cons c cs =>
    unfold splitSep
    cases h : splitSep sep cs with
    | nil => simp
    | cons t ts => split_ifs <;> simp

theorem splitSep_no_sep (sep : Char) (l : List Char) (h : ∀ c ∈ l, c ≠ sep) :
    splitSep sep l = [l] := by
  induction l with
  | nil => rfl
  | cons c cs ih =>
    have hc : c ≠ sep := h c (by simp)
    have ih' := ih (fun x hx => h x (by simp [hx]))
    simp only [splitSep, ih', if_neg hc]


theorem splitSep_append_nosep (sep : Char) (suf : List Char)
    (hsuf : ∀ c ∈ suf, c ≠ sep) :
    ∀ u, splitSep sep (u ++ suf) =
      lastMap (fun x => x ++ suf) (splitSep sep u) := by
  intro u
  induction u with
  | nil =>
    simp only [List.nil_append]
    rw [splitSep_no_sep sep suf hsuf]
    rfl
  | cons c cs ih =>
    simp only [List.cons_append]
    cases h : splitSep sep cs with
    | nil => exact absurd h (splitSep_ne_nil sep cs)
    | cons t ts =>
      rw [h] at ih
      cases ts with
      | nil =>
        simp only [lastMap] at ih
        simp only [splitSep, ih, h, lastMap]
        by_cases hc : c = sep
        · simp [hc, lastMap]
        · simp [hc, lastMap]
      | cons t2 ts2 =>
        simp only [lastMap] at ih
        simp only [splitSep, ih, h, lastMap]
        by_cases hc : c = sep
        · simp [hc, lastMap]
        · simp [hc, lastMap]

theorem map_strip_lastMap (suf : List Char)
    (h : ∀ c ∈ suf, isPySpace c = true) :
    ∀ L : List (List Char),
      (lastMap (fun x => x ++ suf) L).map stripL = L.map stripL := by
  intro L
  induction L with
  | nil => rfl
  | cons x xs ih =>
    cases xs with
    | nil => simp [lastMap, stripL_append_ws x suf h]
    | cons y ys =>
      simp only [lastMap, List.map_cons]
      simp only [lastMap, List.map_cons] at ih
      rw [ih]

theorem splitComma_strip_pre (pre : List Char)
    (h : ∀ c ∈ pre, isPySpace c = true) :
    ∀ u, (splitComma (pre ++ u)).map stripL = (splitComma u).map stripL := by
  induction pre with
  | nil => intro u; rfl
  | cons c p ih =>
    intro u
    have hc : isPySpace c = true := h c (by simp)
    have hcs : c ≠ ',' := pySpace_ne_comma hc
    simp only [List.cons_append]
    cases hsp : splitSep ',' (p ++ u) with
    | nil => exact absurd hsp (splitSep_ne_nil ',' _)
    | cons t ts =>
      show ((splitSep ',' (c :: (p ++ u))).map stripL) = _
      simp only [splitSep, hsp, if_neg hcs, List.map_cons]
      rw [stripL_cons_ws t hc]
      have hihu := ih (fun x hx => h x (by simp [hx])) u
      unfold splitComma at hihu
      rw [hsp] at hihu
      simp only [List.map_cons] at hihu
      exact hihu

theorem strip_nil_all_ws (s : List Char) (h : stripL s = []) :
    ∀ c ∈ s, isPySpace c = true := by
  have h1 : ∀ c ∈ lstripL s, isPySpace c = true := by
    intro c hc
    unfold stripL rstripL at h
    have : (lstripL s).reverse.dropWhile isPySpace = [] := by
      have := congrArg List.reverse h
      simpa using this
    have hall := List.dropWhile_eq_nil_iff.mp this
    exact hall c (List.mem_reverse.mpr hc)
  intro c hc
  have hsplit := List.takeWhile_append_dropWhile isPySpace s
  rw [← hsplit] at hc
  rcases List.mem_append.mp hc with hc | hc
  · exact List.mem_takeWhile_imp hc
  · exact h1 c hc

theorem strip_decomp (s : List Char) :
    ∃ pre suf, (∀ c ∈ pre, isPySpace c = true) ∧
      (∀ c ∈ suf, isPySpace c = true) ∧
      s = pre ++ (stripL s ++ suf) := by
  refine ⟨s.takeWhile isPySpace,
    ((lstripL s).reverse.takeWhile isPySpace).reverse,
    fun c hc => List.mem_takeWhile_imp hc,
    fun c hc => List.mem_takeWhile_imp (List.mem_reverse.mp hc), ?_⟩
  have h1 : stripL s ++ ((lstripL s).reverse.takeWhile isPySpace).reverse =
      lstripL s := by
    show rstripL (lstripL s) ++ _ = lstripL s
    unfold rstripL
    rw [← List.reverse_append, List.takeWhile_append_dropWhile,
      List.reverse_reverse]
  rw [h1]
  exact (List.takeWhile_append_dropWhile isPySpace s).symm


/-- C6: `PuzzleEditor.get_step_data` derives `opponent_moves` exactly as
the spec words it — split on commas, trim each token, drop empties —
and on the scenario input `"Kd1,,  Kd2 "` it yields `["Kd1", "Kd2"]`. -/
theorem opponent_moves_derivation :
    (∀ s : List Char, oppMovesOf s = spec_opponent_moves s) ∧
    oppMovesOf ("Kd1,,  Kd2 ".data) = ["Kd1".data, "Kd2".data] := by
  constructor
  · intro s
    unfold oppMovesOf spec_opponent_moves
    by_cases ht : stripL s = []
    · have hall := strip_nil_all_ws s ht
      rw [if_pos ht]
      unfold splitComma
      rw [splitSep_no_sep ',' s (fun c hc => pySpace_ne_comma (hall c hc))]
      simp [ht]
    · rw [if_neg ht]
      obtain ⟨pre, suf, hpre, hsuf, hdecomp⟩ := strip_decomp s
      have hmaps : (splitComma s).map stripL =
          (splitComma (stripL s)).map stripL := by
        conv_lhs => rw [hdecomp]
        rw [splitComma_strip_pre pre hpre (stripL s ++ suf)]
        show (splitSep ',' (stripL s ++ suf)).map stripL = _
        rw [splitSep_append_nosep ','
          suf (fun c hc => pySpace_ne_comma (hsuf c hc)) (stripL s)]
        exact map_strip_lastMap suf hsuf (splitSep ',' (stripL s))
      rw [hmaps]
  · rfl



/-! ## C7: moving a step and moving it back -/

theorem jTruthy_pySetKey (fs : List (String × Json)) (k : String) (v : Json) :
    jTruthy (.obj (pySetKey fs k v)) = true := by
  cases fs with
  | nil => rfl
  | cons p t =>
    obtain ⟨pk, pv⟩ := p
    unfold pySetKey
    split_ifs <;> rfl


theorem flush_movedState (s : Editor) (fs : List (String × Json))
    (steps : List Json) (a b : Json)
    (hflush : flushEditor s = s)
    (hch : s.chapter = some (.obj fs))
    (htr : jTruthy (.obj fs) = true)
    (hsteps : jLookup fs "steps" = some (.arr steps))
    (h0 : 0 ≤ s.current_idx)
    (hlt1 : s.current_idx + 1 < (steps.length : Int))
    (ha : steps[s.current_idx.toNat]? = some a)
    (hb : steps[(s.current_idx + 1).toNat]? = some b) :
    flushEditor (movedState s fs steps a b) = movedState s fs steps a b := by
  have htro : truthyOpt s.chapter = true := by rw [hch]; exact htr
  have hiN : s.current_idx.toNat < steps.length := by omega
  have hb2 : ((steps.set s.current_idx.toNat b).set
      (s.current_idx + 1).toNat a)[(s.current_idx + 1).toNat]? = some a :=
    List.getElem?_set_self (by simp only [List.length_set]; omega)
  have hfl0 := hflush
  unfold flushEditor at hfl0
  rw [if_neg (by rw [not_or]; exact ⟨by omega, by simp [htro]⟩)] at hfl0
  simp only [hch, hsteps] at hfl0
  rw [if_pos (by omega : s.current_idx < (steps.length : Int))] at hfl0
  simp only [ha] at hfl0
  unfold flushEditor
  simp only [movedState, setSteps, jLookup_pySetKey]
  rw [if_neg (by
    rw [not_or]
    exact ⟨by omega, by simp [truthyOpt, jTruthy_pySetKey]⟩)]
  rw [if_pos (show s.current_idx + 1 <
      ((((steps.set s.current_idx.toNat b).set
        (s.current_idx + 1).toNat a)).length : Int) by
    simp only [List.length_set]; omega)]
  simp only [hb2]
  rcases hty : jGet a "type" with _ | v
  · simp only [hty] at hfl0 ⊢
  · cases v with
    | str t =>
      by_cases ht1 : t = "puzzle"
      · subst ht1
        simp only [hty] at hfl0 ⊢
        have hc2 := congrArg Editor.chapter hfl0
        simp only [setSteps] at hc2
        rw [hch] at hc2
        injection hc2 with hc3
        injection hc3 with hc4
        have hc5 := congrArg (fun l => jLookup l "steps") hc4
        simp only [jLookup_pySetKey, hsteps] at hc5
        injection hc5 with hc6
        injection hc6 with hc7
        have hg := congrArg (fun l => l[s.current_idx.toNat]?) hc7
        simp only [List.getElem?_set_self hiN] at hg
        rw [ha] at hg
        injection hg with hPa
        rw [hPa, list_set_self _ _ _ hb2]
        simp only [setSteps, pySetKey_idem]
      · by_cases ht2 : t = "dialog"
        · subst ht2
          simp only [hty] at hfl0 ⊢
          have hc2 := congrArg Editor.chapter hfl0
          simp only [setSteps] at hc2
          rw [hch] at hc2
          injection hc2 with hc3
          injection hc3 with hc4
          have hc5 := congrArg (fun l => jLookup l "steps") hc4
          simp only [jLookup_pySetKey, hsteps] at hc5
          injection hc5 with hc6
          injection hc6 with hc7
          have hg := congrArg (fun l => l[s.current_idx.toNat]?) hc7
          simp only [List.getElem?_set_self hiN] at hg
          rw [ha] at hg
          injection hg with hPa
          rw [hPa, list_set_self _ _ _ hb2]
          simp only [setSteps, pySetKey_idem]
        · split
          · rename_i heq
            simp at heq
            first
              | exact absurd heq ht1
              | exact absurd heq.symm ht1
          · rename_i heq
            simp at heq
            first
              | exact absurd heq ht2
              | exact absurd heq.symm ht2
          · rfl
    | null => simp only [hty]
    | bool x => simp only [hty]
    | int n => simp only [hty]
    | arr xs => simp only [hty]
    | obj g => simp only [hty]

theorem move_back (s : Editor) (fs : List (String × Json))
    (steps : List Json) (a b : Json)
    (htr : jTruthy (.obj fs) = true)
    (h0 : 0 ≤ s.current_idx)
    (hlt1 : s.current_idx + 1 < (steps.length : Int))
    (ha : steps[s.current_idx.toNat]? = some a)
    (hb : steps[(s.current_idx + 1).toNat]? = some b)
    (hfl : flushEditor (movedState s fs steps a b) = movedState s fs steps a b) :
    stepsView (move_step (-1) (movedState s fs steps a b)) = steps ∧
    (move_step (-1) (movedState s fs steps a b)).current_idx = s.current_idx := by
  have hiN : s.current_idx.toNat < steps.length := by omega
  have hb2 : ((steps.set s.current_idx.toNat b).set
      (s.current_idx + 1).toNat a)[(s.current_idx + 1).toNat]? = some a :=
    List.getElem?_set_self (by simp only [List.length_set]; omega)
  have hbl : ((steps.set s.current_idx.toNat b).set
      (s.current_idx + 1).toNat a)[s.current_idx.toNat]? = some b := by
    rw [List.getElem?_set_ne (by omega : (s.current_idx + 1).toNat ≠ s.current_idx.toNat)]
    exact List.getElem?_set_self hiN
  have hidx : s.current_idx + 1 + -1 = s.current_idx := by omega
  unfold move_step
  rw [if_neg (by
    rw [not_or]
    refine ⟨by simp [movedState, setSteps, truthyOpt, jTruthy_pySetKey], ?_⟩
    show ¬ (s.current_idx + 1 < 0)
    omega)]
  rw [hfl]
  simp only [movedState, setSteps, jLookup_pySetKey]
  simp only [hidx]
  rw [if_pos ⟨h0, show s.current_idx <
      ((((steps.set s.current_idx.toNat b).set
        (s.current_idx + 1).toNat a)).length : Int) by
    simp only [List.length_set]; omega⟩]
  simp only [hb2, hbl]
  constructor
  · simp only [stepsView, jLookup_pySetKey]
    have e1 : ((steps.set s.current_idx.toNat b).set
        (s.current_idx + 1).toNat a).set (s.current_idx + 1).toNat b =
        steps.set s.current_idx.toNat b := by
      rw [List.set_set]
      refine list_set_self _ _ _ ?_
      rw [List.getElem?_set_ne (by omega : s.current_idx.toNat ≠ (s.current_idx + 1).toNat)]
      exact hb
    rw [e1, List.set_set]
    exact list_set_self _ _ _ ha
  · trivial

/-- C7: on a flushed editor with the active step in bounds, moving the
active step down and then moving it back up restores the original
`steps` order and active index; and a move whose neighbour index is out
of bounds is a silent no-op on the state, not an error. -/
theorem move_step_swap (s : Editor) (fs : List (String × Json))
    (steps : List Json) (dir : Int)
    (hflush : flushEditor s = s)
    (hch : s.chapter = some (.obj fs))
    (htr : jTruthy (.obj fs) = true)
    (hsteps : jLookup fs "steps" = some (.arr steps))
    (h0 : 0 ≤ s.current_idx)
    (hlt : s.current_idx < (steps.length : Int)) :
    (s.current_idx + 1 < (steps.length : Int) →
      stepsView (move_step (-1) (move_step 1 s)) = steps ∧
      (move_step (-1) (move_step 1 s)).current_idx = s.current_idx) ∧
    (¬ (0 ≤ s.current_idx + dir ∧ s.current_idx + dir < (steps.length : Int)) →
      move_step dir s = s) := by
  have htro : truthyOpt s.chapter = true := by rw [hch]; exact htr
  constructor
  · intro hlt1
    obtain ⟨a, ha⟩ : ∃ a, steps[s.current_idx.toNat]? = some a :=
      ⟨_, List.getElem?_eq_getElem (by omega)⟩
    obtain ⟨b, hb⟩ : ∃ b, steps[(s.current_idx + 1).toNat]? = some b :=
      ⟨_, List.getElem?_eq_getElem (by omega)⟩
    have hm1 : move_step 1 s = movedState s fs steps a b := by
      unfold move_step movedState
      rw [if_neg (by rw [not_or]; exact ⟨by simp [htro], by omega⟩), hflush]
      simp only [hch, hsteps]
      rw [if_pos ⟨by omega, hlt1⟩]
      simp only [ha, hb]
    rw [hm1]
    exact move_back s fs steps a b htr h0 hlt1 ha hb
      (flush_movedState s fs steps a b hflush hch htr hsteps h0 hlt1 ha hb)
  · intro hoob
    unfold move_step
    rw [if_neg (by rw [not_or]; exact ⟨by simp [htro], by omega⟩), hflush]
    simp only [hch, hsteps]
    rw [if_neg hoob]





/-- Witness: a flushed two-step chapter with the first step active;
move down then up restores the order, and a move towards index `-1` is
a no-op. -/
theorem move_step_swap_witness :
    flushEditor c7Editor = c7Editor ∧
    c7Editor.chapter = some (.obj [("chapter", .int 1),
      ("steps", .arr [c7Step1, c7Step2])]) ∧
    ((c7Editor.current_idx + 1 < (([c7Step1, c7Step2] : List Json).length : Int) →
      stepsView (move_step (-1) (move_step 1 c7Editor)) = [c7Step1, c7Step2] ∧
      (move_step (-1) (move_step 1 c7Editor)).current_idx =
        c7Editor.current_idx) ∧
    (¬ (0 ≤ c7Editor.current_idx + (-1) ∧
        c7Editor.current_idx + (-1) < (([c7Step1, c7Step2] : List Json).length : Int)) →
      move_step (-1) c7Editor = c7Editor)) :=
  ⟨rfl, rfl,
    move_step_swap c7Editor _ [c7Step1, c7Step2] (-1) rfl rfl rfl rfl
      (by decide) (by decide)⟩


end Wachesaw
